import Mathlib

/-!
# Workflow executor: shallow embedding and verification

Embedding of the discrete-time task scheduling simulator
(functional variant in `src/unnamed/part_000`, OOP variant in `src/oop.ts`).

Modelling choices:
* task identifiers are strings, times are naturals (the input contract
  demands positive integer durations and simulated time starts at 0);
* a JS `Map` is an insertion-ordered association list: `Map.set` replaces
  the value at the first (and only) occurrence of an existing key in place,
  otherwise appends — exactly the observable JS behaviour, including the
  iteration order of `Map.values()`;
* a JS `Set` is an insertion-ordered duplicate-free list: `add` appends a
  missing element, `delete` removes it; its `size` is the list length
  (all set values reachable in this program are duplicate-free);
* the source `while` loop of `startNewTasks` runs with fuel equal to the
  number of tasks: every iteration that does not exit the loop turns one
  `pending` task into a `running` one, so the loop body can execute at most
  `tasks.size` times before `getAvailableTasks` is empty, and the fuel
  never expires before the loop's own exit condition holds;
* the source `do … while` loop of `runAll` has no intrinsic bound (on a
  cyclic input it never exits), so it is embedded as `runAllFuel`, which
  returns `some finalState` when the loop exits within the given number of
  iterations and `none` otherwise;
* the non-null assertions `newTasks.get(taskId)!` and `task.startTime!`
  of the completion pass are modelled by skipping a missing entry and
  reading a missing start time as 0; both situations are impossible in any
  state reachable from `initializeWorkflow` (every running id has an entry
  with a set start time).
-/

namespace Workflow

abbrev TaskId := String

/-- `type Task` of the source: an input task descriptor. -/
structure Task where
  id : TaskId
  time : Nat
  deps : List TaskId
deriving DecidableEq

/-- Task lifecycle status: `'pending' | 'running' | 'completed'`. -/
inductive Status where
  | pending
  | running
  | completed
deriving DecidableEq

/-- `interface TaskState` of the source. -/
structure TaskState where
  id : TaskId
  time : Nat
  deps : List TaskId
  status : Status
  startTime : Option Nat
  endTime : Option Nat
deriving DecidableEq

/-- The `Map<TaskId, TaskState>` of the source as an insertion-ordered
association list. -/
abbrev TaskMap := List (TaskId × TaskState)

/-- JS `Map.get`: the value at the first occurrence of the key. -/
def mapGet (m : TaskMap) (k : TaskId) : Option TaskState :=
  match m with
  | [] => none
  | p :: rest => if p.1 = k then some p.2 else mapGet rest k

/-- JS `Map.set`: replace the value at an existing key in place,
otherwise append the new entry. -/
def mapSet (m : TaskMap) (k : TaskId) (v : TaskState) : TaskMap :=
  match m with
  | [] => [(k, v)]
  | p :: rest => if p.1 = k then (k, v) :: rest else p :: mapSet rest k v

/-- JS `Set.add` on an insertion-ordered duplicate-free list. -/
def setAdd (s : List TaskId) (x : TaskId) : List TaskId :=
  if x ∈ s then s else s ++ [x]

/-- JS `Set.delete` on an insertion-ordered duplicate-free list. -/
def setDelete (s : List TaskId) (x : TaskId) : List TaskId :=
  s.filter (fun y => y ≠ x)

/-- `interface WorkflowState` of the source. -/
structure WorkflowState where
  tasks : TaskMap
  currentTime : Nat
  runningTasks : List TaskId
  maxConcurrent : Nat
deriving DecidableEq

/-- `createTaskState` of the source. -/
def createTaskState (t : Task) : TaskState :=
  { id := t.id, time := t.time, deps := t.deps
    status := .pending, startTime := none, endTime := none }

/-- The `new Map(tasks.map(task => [task.id, createTaskState(task)]))`
construction: insert the entries in input order. -/
def initialTaskMap (tasks : List Task) : TaskMap :=
  tasks.foldl (fun m t => mapSet m t.id (createTaskState t)) []

/-- `initializeWorkflow` of the source.  Note that the source performs no
validation whatsoever: it accepts any task list (cyclic or with unknown
dependency ids) and any `maxConcurrent` (including 0) without error. -/
def initializeWorkflow (tasks : List Task) (maxConcurrent : Nat) : WorkflowState :=
  { tasks := initialTaskMap tasks
    currentTime := 0
    runningTasks := []
    maxConcurrent := maxConcurrent }

/-- `isDependencyCompleted` of the source: totally `false` for an unknown id. -/
def isDependencyCompleted (dependency : TaskId) (tasks : TaskMap) : Bool :=
  match mapGet tasks dependency with
  | some t => t.status = Status.completed
  | none => false

/-- `canStartTask` of the source. -/
def canStartTask (taskId : TaskId) (s : WorkflowState) : Bool :=
  match mapGet s.tasks taskId with
  | some t => t.status = Status.pending &&
      t.deps.all (fun depId => isDependencyCompleted depId s.tasks)
  | none => false

/-- `getAvailableTasks` of the source: the map's values in insertion order,
filtered by `canStartTask`. -/
def getAvailableTasks (s : WorkflowState) : List TaskState :=
  (s.tasks.map (fun p => p.2)).filter (fun t => canStartTask t.id s)

/-- Mark a task state completed at the given time
(`{...task, status: 'completed', endTime: state.currentTime}`). -/
def markDone (ct : Nat) (t : TaskState) : TaskState :=
  { t with status := .completed, endTime := some ct }

/-- One iteration of the `forEach` body of `updateRunningTasks`: reads the
entry from the map copy built so far and, when the task has run its full
duration (`task.startTime! + task.time <= state.currentTime`), marks it
completed and deletes it from the running set. -/
def completeOne (ct : Nat) (acc : TaskMap × List TaskId) (taskId : TaskId) :
    TaskMap × List TaskId :=
  match mapGet acc.1 taskId with
  | some t =>
      if t.startTime.getD 0 + t.time ≤ ct then
        (mapSet acc.1 taskId (markDone ct t), setDelete acc.2 taskId)
      else acc
  | none => acc

/-- `updateRunningTasks` of the source: the completion pass, folding the
body over the snapshot of the running set. -/
def updateRunningTasks (s : WorkflowState) : WorkflowState :=
  let acc := s.runningTasks.foldl (completeOne s.currentTime) (s.tasks, s.runningTasks)
  { s with tasks := acc.1, runningTasks := acc.2 }

/-- The loop body effect of `startNewTasks`: admit one available task —
status `running`, start time now, id added to the running set. -/
def admitTask (s : WorkflowState) (t : TaskState) : WorkflowState :=
  { s with
    tasks := mapSet s.tasks t.id
      { t with status := .running, startTime := some s.currentTime }
    runningTasks := setAdd s.runningTasks t.id }

/-- The `while (runningTasks.size < maxConcurrent)` loop of
`startNewTasks`, with explicit fuel.  Besides the next state it returns
the list of admitted task ids in admission order (the admission trace),
which the source prints as `Starting task … at time …` log lines. -/
def startNewTasksAux : Nat → WorkflowState → WorkflowState × List TaskId
  | 0, s => (s, [])
  | fuel + 1, s =>
      if s.runningTasks.length < s.maxConcurrent then
        match getAvailableTasks s with
        | [] => (s, [])
        | t :: _ =>
            let r := startNewTasksAux fuel (admitTask s t)
            (r.1, t.id :: r.2)
      else (s, [])

/-- `startNewTasks` of the source: the admission pass.  The fuel
`s.tasks.length` never expires before the loop's own exit condition holds
(each iteration removes one id from the set of start-able ids, of which
there are at most `tasks.length`). -/
def startNewTasks (s : WorkflowState) : WorkflowState :=
  (startNewTasksAux s.tasks.length s).1

/-- The ids admitted by the admission pass, in admission order. -/
def admissionTrace (s : WorkflowState) : List TaskId :=
  (startNewTasksAux s.tasks.length s).2

/-- `hasUnfinishedTasks` of the source. -/
def hasUnfinishedTasks (s : WorkflowState) : Bool :=
  (s.tasks.map (fun p => p.2)).any (fun t => !(t.status = Status.completed))

/-- `next` of the source: one tick — completion pass, admission pass, then
time advance when anything is still running; the boolean is the
`shouldContinue` flag of the driver loop. -/
def next (s : WorkflowState) : WorkflowState × Bool :=
  let s1 := startNewTasks (updateRunningTasks s)
  if s1.runningTasks.length > 0 then
    ({ s1 with currentTime := s1.currentTime + 1 }, true)
  else
    (s1, hasUnfinishedTasks s1)

/-- `runAll` of the source is `do { … } while (shouldContinue)`, a loop
with no intrinsic bound; with fuel it returns `some finalState` when the
loop exits within `fuel` iterations of `next`, and `none` otherwise. -/
def runAllFuel : Nat → WorkflowState → Option WorkflowState
  | 0, _ => none
  | fuel + 1, s =>
      let r := next s
      if r.2 then runAllFuel fuel r.1 else some r.1

/-- The state after `n` iterations of the driver loop. -/
def stepN (s : WorkflowState) : Nat → WorkflowState
  | 0 => s
  | n + 1 => (next (stepN s n)).1

/-- `canStartTask` of the OOP variant (`TaskQueue.canStartTask` in
`src/oop.ts`); operationally identical to the functional one. -/
def canStartTaskOOP (taskId : TaskId) (s : WorkflowState) : Bool :=
  match mapGet s.tasks taskId with
  | none => false
  | some t =>
      if !(t.status = Status.pending) then false
      else t.deps.all (fun depId =>
        match mapGet s.tasks depId with
        | some dt => dt.status = Status.completed
        | none => false)

/-- The `TaskQueue` constructor of `src/oop.ts`: like the functional
`initializeWorkflow` it performs no validation and cannot fail. -/
def taskQueueInit (tasks : List Task) (maxConcurrent : Nat) : WorkflowState :=
  { tasks := tasks.foldl (fun m t => mapSet m t.id (createTaskState t)) []
    currentTime := 0
    runningTasks := []
    maxConcurrent := maxConcurrent }

/-- `tasks_2` of the source — the reference scenario input. -/
def tasks_2 : List Task :=
  [ { id := "A", time := 3, deps := [] }
  , { id := "B", time := 2, deps := ["A"] }
  , { id := "C", time := 1, deps := ["A"] }
  , { id := "D", time := 4, deps := ["B", "C"] }
  , { id := "E", time := 1, deps := ["D"] } ]

/-- Start and end times of a task in an optional final state. -/
def taskTimes (s : Option WorkflowState) (id : TaskId) :
    Option (Option Nat × Option Nat) :=
  s.bind (fun f => (mapGet f.tasks id).map (fun t => (t.startTime, t.endTime)))

/-- The completion condition of `updateRunningTasks` for an id, read off
the map: the entry exists and `startTime + time ≤ ct`. -/
def doneNow (ct : Nat) (m : TaskMap) (id : TaskId) : Bool :=
  match mapGet m id with
  | some t => decide (t.startTime.getD 0 + t.time ≤ ct)
  | none => false

/-- The structural facts about a state that the admission-loop lemmas
need: keys are duplicate-free, every stored task state carries its own
key as id, and a start-able task is not already in the running set. -/
structure Ctx (s : WorkflowState) : Prop where
  keysNodup : (s.tasks.map Prod.fst).Nodup
  idMatch : ∀ p ∈ s.tasks, p.2.id = p.1
  readyNotRun : ∀ x, canStartTask x s = true → x ∉ s.runningTasks

/-- Invariant satisfied by every state the driver can reach from
`initializeWorkflow`: structural well-formedness of the maps, coherence
of the running set with the statuses, the concurrency bound, and the
dependency-safety facts recorded in start/end times. -/
structure WF (s : WorkflowState) : Prop where
  keysNodup : (s.tasks.map Prod.fst).Nodup
  idMatch : ∀ p ∈ s.tasks, p.2.id = p.1
  pendingOK : ∀ id t, mapGet s.tasks id = some t → t.status = .pending →
    t.startTime = none ∧ t.endTime = none
  runningOK : ∀ id t, mapGet s.tasks id = some t → t.status = .running →
    ∃ st, t.startTime = some st ∧ st ≤ s.currentTime ∧ t.endTime = none
  completedOK : ∀ id t, mapGet s.tasks id = some t → t.status = .completed →
    ∃ e, t.endTime = some e ∧ e ≤ s.currentTime
  cohF : ∀ id ∈ s.runningTasks,
    ∃ t, mapGet s.tasks id = some t ∧ t.status = .running
  cohB : ∀ id t, mapGet s.tasks id = some t → t.status = .running →
    id ∈ s.runningTasks
  runNodup : s.runningTasks.Nodup
  runBound : s.runningTasks.length ≤ s.maxConcurrent
  depsOK : ∀ id t, mapGet s.tasks id = some t → ¬t.status = .pending →
    ∀ d ∈ t.deps, ∃ dt, mapGet s.tasks d = some dt ∧
      dt.status = .completed ∧
      ∃ st e, t.startTime = some st ∧ dt.endTime = some e ∧ e ≤ st

/-- Numeric rank of a status along the lifecycle
`pending → running → completed`. -/
def statusRank : Status → Nat
  | .pending => 0
  | .running => 1
  | .completed => 2

/-- The lifecycle order on statuses: `a` precedes (or equals) `b`. -/
def statusLe (a b : Status) : Prop := statusRank a ≤ statusRank b

/-- The status a task map records for an id (`pending` for an id without
an entry; entries are never added or removed after initialization). -/
def mapStatus (m : TaskMap) (id : TaskId) : Status :=
  match mapGet m id with
  | some t => t.status
  | none => .pending

/-- The status a state records for an id. -/
def statusOf (s : WorkflowState) (id : TaskId) : Status :=
  mapStatus s.tasks id

/-- Sum of the durations of the input tasks. -/
def sumDurations (tasks : List Task) : Nat :=
  (tasks.map (fun t => t.time)).sum

/-- Time units a task state still has to spend before it can complete,
as seen at simulated time `ct`. -/
def remaining (ct : Nat) (t : TaskState) : Nat :=
  match t.status with
  | .pending => t.time
  | .running => t.startTime.getD 0 + t.time - ct
  | .completed => 0

/-- Total outstanding work of a state: the termination measure of the
driver loop. -/
def workload (s : WorkflowState) : Nat :=
  (s.tasks.map (fun p => remaining s.currentTime p.2)).sum

/-- The cyclic two-task input of the specification's cycle-detection
scenario: `A` depends on `B` and `B` depends on `A`. -/
def cycleTasks : List Task :=
  [ { id := "A", time := 1, deps := ["B"] }
  , { id := "B", time := 1, deps := ["A"] } ]

/-- An input whose single task references an undeclared dependency. -/
def unknownDepTasks : List Task :=
  [ { id := "A", time := 1, deps := ["X"] } ]

/-! ## Association-list (JS `Map`) lemmas -/

theorem mapGet_mapSet_self (m : TaskMap) (k : TaskId) (v : TaskState) :
    mapGet (mapSet m k v) k = some v := by
  induction m with
  | nil => simp [mapGet, mapSet]
  | cons p rest ih =>
      by_cases h : p.1 = k
      · simp [mapGet, mapSet, h]
      · simp [mapGet, mapSet, h, ih]

theorem mapGet_mapSet_ne (m : TaskMap) {k k' : TaskId} (v : TaskState)
    (h : k' ≠ k) : mapGet (mapSet m k v) k' = mapGet m k' := by
  have hk : ¬k = k' := fun hh => h hh.symm
  induction m with
  | nil => simp [mapGet, mapSet, hk]
  | cons p rest ih =>
      by_cases hp : p.1 = k
      · subst hp
        simp [mapGet, mapSet, hk]
      · by_cases hq : p.1 = k'
        · simp [mapGet, mapSet, hp, hq, h, hk]
        · simp [mapGet, mapSet, hp, hq, ih]

theorem mapGet_eq_none_iff (m : TaskMap) (k : TaskId) :
    mapGet m k = none ↔ k ∉ m.map Prod.fst := by
  induction m with
  | nil => simp [mapGet]
  | cons p rest ih =>
      by_cases h : p.1 = k
      · simp [mapGet, h]
      · simp [mapGet, h, ih, Ne.symm h]

theorem mapGet_isSome_of_mem_keys {m : TaskMap} {k : TaskId}
    (h : k ∈ m.map Prod.fst) : ∃ v, mapGet m k = some v := by
  rcases ho : mapGet m k with _ | v
  · exact absurd ((mapGet_eq_none_iff m k).1 ho) (by simp [h])
  · exact ⟨v, rfl⟩

theorem mem_keys_of_mapGet {m : TaskMap} {k : TaskId} {v : TaskState}
    (h : mapGet m k = some v) : k ∈ m.map Prod.fst := by
  by_contra hk
  rw [← mapGet_eq_none_iff] at hk
  simp [hk] at h

theorem mem_of_mapGet {m : TaskMap} {k : TaskId} {v : TaskState}
    (h : mapGet m k = some v) : (k, v) ∈ m := by
  induction m with
  | nil => simp [mapGet] at h
  | cons p rest ih =>
      by_cases hp : p.1 = k
      · subst hp
        simp [mapGet] at h
        simp [← h]
      · simp [mapGet, hp] at h
        exact List.mem_cons_of_mem _ (ih h)

theorem mapGet_of_mem {m : TaskMap} {k : TaskId} {v : TaskState}
    (hnd : (m.map Prod.fst).Nodup) (h : (k, v) ∈ m) : mapGet m k = some v := by
  induction m with
  | nil => simp at h
  | cons p rest ih =>
      rw [List.map_cons, List.nodup_cons] at hnd
      rcases List.mem_cons.1 h with h | h
      · subst h
        simp [mapGet]
      · have hk : k ∈ rest.map Prod.fst := List.mem_map_of_mem Prod.fst h
        have hp : ¬p.1 = k := fun hh => hnd.1 (hh ▸ hk)
        simp [mapGet, hp]
        exact ih hnd.2 h

theorem keys_mapSet_of_mem {m : TaskMap} {k : TaskId} (v : TaskState)
    (h : k ∈ m.map Prod.fst) :
    (mapSet m k v).map Prod.fst = m.map Prod.fst := by
  induction m with
  | nil => simp at h
  | cons p rest ih =>
      by_cases hp : p.1 = k
      · simp [mapSet, hp]
      · rw [List.map_cons, List.mem_cons] at h
        rcases h with h | h
        · exact absurd h.symm hp
        · simp [mapSet, hp, ih h]

theorem keys_mapSet_of_not_mem {m : TaskMap} {k : TaskId} (v : TaskState)
    (h : k ∉ m.map Prod.fst) :
    (mapSet m k v).map Prod.fst = m.map Prod.fst ++ [k] := by
  induction m with
  | nil => simp [mapSet]
  | cons p rest ih =>
      rw [List.map_cons, List.mem_cons] at h
      push_neg at h
      have hp : ¬p.1 = k := fun hh => h.1 hh.symm
      simp [mapSet, hp, ih h.2]

/-! ## Completion pass characterization -/

theorem completeFold_get (ct : Nat) :
    ∀ (L : List TaskId) (m : TaskMap) (r : List TaskId), L.Nodup →
    ∀ id, mapGet (L.foldl (completeOne ct) (m, r)).1 id =
      if id ∈ L ∧ doneNow ct m id then (mapGet m id).map (markDone ct)
      else mapGet m id := by
  intro L
  induction L with
  | nil => intro m r _ id; simp [List.foldl]
  | cons a L ih =>
      intro m r hnd id
      rw [List.nodup_cons] at hnd
      rw [List.foldl_cons]
      rcases hma : mapGet m a with _ | t
      · have hstep : completeOne ct (m, r) a = (m, r) := by
          simp [completeOne, hma]
        rw [hstep, ih m r hnd.2 id]
        have hdn : doneNow ct m a = false := by simp [doneNow, hma]
        by_cases hid : id = a
        · subst hid; simp [hdn]
        · simp [List.mem_cons, hid]
      · by_cases hc : t.startTime.getD 0 + t.time ≤ ct
        · have hstep : completeOne ct (m, r) a =
              (mapSet m a (markDone ct t), setDelete r a) := by
            simp [completeOne, hma, hc]
          rw [hstep, ih _ _ hnd.2 id]
          by_cases hid : id = a
          · subst hid
            have hdn : doneNow ct m id = true := by simp [doneNow, hma, hc]
            simp [hnd.1, mapGet_mapSet_self, hma, hdn]
          · have hget : mapGet (mapSet m a (markDone ct t)) id = mapGet m id :=
              mapGet_mapSet_ne _ _ hid
            have hdn : doneNow ct (mapSet m a (markDone ct t)) id =
                doneNow ct m id := by simp [doneNow, hget]
            simp [hget, hdn, List.mem_cons, hid]
        · have hstep : completeOne ct (m, r) a = (m, r) := by
            simp [completeOne, hma, hc]
          rw [hstep, ih m r hnd.2 id]
          have hdn : doneNow ct m a = false := by simp [doneNow, hma, hc]
          by_cases hid : id = a
          · subst hid; simp [hdn]
          · simp [List.mem_cons, hid]

theorem completeFold_run (ct : Nat) :
    ∀ (L : List TaskId) (m : TaskMap) (r : List TaskId), L.Nodup →
    (L.foldl (completeOne ct) (m, r)).2 =
      r.filter (fun x => !(decide (x ∈ L) && doneNow ct m x)) := by
  intro L
  induction L with
  | nil => simp [List.foldl]
  | cons a L ih =>
      intro m r hnd
      rw [List.nodup_cons] at hnd
      rw [List.foldl_cons]
      rcases hma : mapGet m a with _ | t
      · have hstep : completeOne ct (m, r) a = (m, r) := by
          simp [completeOne, hma]
        rw [hstep, ih m r hnd.2]
        refine List.filter_congr (fun x _ => ?_)
        have hdn : doneNow ct m a = false := by simp [doneNow, hma]
        by_cases hid : x = a
        · subst hid; simp [hdn]
        · simp [List.mem_cons, hid]
      · by_cases hc : t.startTime.getD 0 + t.time ≤ ct
        · have hstep : completeOne ct (m, r) a =
              (mapSet m a (markDone ct t), setDelete r a) := by
            simp [completeOne, hma, hc]
          rw [hstep, ih _ _ hnd.2]
          rw [setDelete, List.filter_filter]
          refine List.filter_congr (fun x _ => ?_)
          by_cases hid : x = a
          · subst hid
            have hdn : doneNow ct m x = true := by simp [doneNow, hma, hc]
            simp [hdn]
          · have hget : mapGet (mapSet m a (markDone ct t)) x = mapGet m x :=
              mapGet_mapSet_ne _ _ hid
            have hdn : doneNow ct (mapSet m a (markDone ct t)) x =
                doneNow ct m x := by simp [doneNow, hget]
            simp [hdn, List.mem_cons, hid]
        · have hstep : completeOne ct (m, r) a = (m, r) := by
            simp [completeOne, hma, hc]
          rw [hstep, ih m r hnd.2]
          refine List.filter_congr (fun x _ => ?_)
          have hdn : doneNow ct m a = false := by simp [doneNow, hma, hc]
          by_cases hid : x = a
          · subst hid; simp [hdn]
          · simp [List.mem_cons, hid]

theorem completeFold_keys (ct : Nat) :
    ∀ (L : List TaskId) (m : TaskMap) (r : List TaskId),
    (L.foldl (completeOne ct) (m, r)).1.map Prod.fst = m.map Prod.fst := by
  intro L
  induction L with
  | nil => simp [List.foldl]
  | cons a L ih =>
      intro m r
      rw [List.foldl_cons]
      rcases hma : mapGet m a with _ | t
      · have hstep : completeOne ct (m, r) a = (m, r) := by
          simp [completeOne, hma]
        rw [hstep, ih]
      · by_cases hc : t.startTime.getD 0 + t.time ≤ ct
        · have hstep : completeOne ct (m, r) a =
              (mapSet m a (markDone ct t), setDelete r a) := by
            simp [completeOne, hma, hc]
          rw [hstep, ih, keys_mapSet_of_mem _ (mem_keys_of_mapGet hma)]
        · have hstep : completeOne ct (m, r) a = (m, r) := by
            simp [completeOne, hma, hc]
          rw [hstep, ih]

theorem updateRunning_get (s : WorkflowState) (hnd : s.runningTasks.Nodup)
    (id : TaskId) :
    mapGet (updateRunningTasks s).tasks id =
      if id ∈ s.runningTasks ∧ doneNow s.currentTime s.tasks id
      then (mapGet s.tasks id).map (markDone s.currentTime)
      else mapGet s.tasks id :=
  completeFold_get s.currentTime s.runningTasks s.tasks s.runningTasks hnd id

theorem updateRunning_run (s : WorkflowState) (hnd : s.runningTasks.Nodup) :
    (updateRunningTasks s).runningTasks =
      s.runningTasks.filter (fun x => !doneNow s.currentTime s.tasks x) := by
  show (s.runningTasks.foldl (completeOne s.currentTime)
      (s.tasks, s.runningTasks)).2 = _
  rw [completeFold_run s.currentTime s.runningTasks s.tasks s.runningTasks hnd]
  exact List.filter_congr (fun x hx => by simp [hx])

theorem updateRunning_time (s : WorkflowState) :
    (updateRunningTasks s).currentTime = s.currentTime := rfl

theorem updateRunning_max (s : WorkflowState) :
    (updateRunningTasks s).maxConcurrent = s.maxConcurrent := rfl

theorem updateRunning_keys (s : WorkflowState) :
    (updateRunningTasks s).tasks.map Prod.fst = s.tasks.map Prod.fst :=
  completeFold_keys s.currentTime s.runningTasks s.tasks s.runningTasks

/-! ## Admission pass: basic lemmas -/

theorem mem_mapSet {m : TaskMap} {k : TaskId} {v : TaskState}
    {p : TaskId × TaskState} (h : p ∈ mapSet m k v) : p ∈ m ∨ p = (k, v) := by
  induction m with
  | nil => simp [mapSet] at h; exact Or.inr (by simp [h])
  | cons q rest ih =>
      by_cases hq : q.1 = k
      · simp [mapSet, hq] at h
        rcases h with h | h
        · exact Or.inr (by simp [h])
        · exact Or.inl (List.mem_cons_of_mem _ h)
      · simp [mapSet, hq] at h
        rcases h with h | h
        · exact Or.inl (by simp [h])
        · rcases ih h with h | h
          · exact Or.inl (List.mem_cons_of_mem _ h)
          · exact Or.inr h

theorem mem_setAdd {s : List TaskId} {x y : TaskId} :
    y ∈ setAdd s x ↔ y ∈ s ∨ y = x := by
  by_cases h : x ∈ s
  · constructor
    · intro hy; exact Or.inl (by simpa [setAdd, h] using hy)
    · intro hy
      rcases hy with hy | hy
      · simpa [setAdd, h] using hy
      · subst hy; simp [setAdd, h]
  · simp [setAdd, h]

theorem setAdd_of_not_mem {s : List TaskId} {x : TaskId} (h : x ∉ s) :
    setAdd s x = s ++ [x] := by simp [setAdd, h]

theorem length_le_setAdd (s : List TaskId) (x : TaskId) :
    s.length ≤ (setAdd s x).length := by
  by_cases h : x ∈ s <;> simp [setAdd, h]

theorem values_ids (m : TaskMap) (hid : ∀ p ∈ m, p.2.id = p.1) :
    (m.map Prod.snd).map (fun t => t.id) = m.map Prod.fst := by
  induction m with
  | nil => simp
  | cons p rest ih =>
      simp only [List.map_cons, List.cons.injEq]
      exact ⟨hid p (by simp), ih (fun q hq => hid q (List.mem_cons_of_mem _ hq))⟩

theorem avail_mem_canStart {s : WorkflowState} {x : TaskState}
    (h : x ∈ getAvailableTasks s) : canStartTask x.id s = true :=
  (List.mem_filter.1 h).2

theorem avail_mem_values {s : WorkflowState} {x : TaskState}
    (h : x ∈ getAvailableTasks s) : x ∈ s.tasks.map Prod.snd :=
  (List.mem_filter.1 h).1

theorem avail_mem_get {s : WorkflowState} {x : TaskState}
    (hkn : (s.tasks.map Prod.fst).Nodup) (hid : ∀ p ∈ s.tasks, p.2.id = p.1)
    (h : x ∈ getAvailableTasks s) : mapGet s.tasks x.id = some x := by
  rcases List.mem_map.1 (avail_mem_values h) with ⟨p, hp, hpx⟩
  have : x.id = p.1 := hpx ▸ hid p hp
  rw [this]
  exact mapGet_of_mem hkn (by rcases p with ⟨a, b⟩; cases hpx; exact hp)

theorem canStart_pending {s : WorkflowState} {x : TaskState}
    (hget : mapGet s.tasks x.id = some x) (hc : canStartTask x.id s = true) :
    x.status = .pending := by
  rw [canStartTask, hget] at hc
  simp only [Bool.and_eq_true, decide_eq_true_eq] at hc
  exact hc.1

theorem isDep_admit {s : WorkflowState} {t : TaskState}
    (hget : mapGet s.tasks t.id = some t) (hp : t.status = .pending)
    (d : TaskId) :
    isDependencyCompleted d (admitTask s t).tasks =
      isDependencyCompleted d s.tasks := by
  by_cases hd : d = t.id
  · have h1 : mapGet (admitTask s t).tasks t.id = some
        { t with status := .running, startTime := some s.currentTime } :=
      mapGet_mapSet_self _ _ _
    rw [hd]
    simp [isDependencyCompleted, h1, hget, hp]
  · have h1 : mapGet (admitTask s t).tasks d = mapGet s.tasks d :=
      mapGet_mapSet_ne _ _ hd
    simp [isDependencyCompleted, h1]

theorem canStart_admit_ne {s : WorkflowState} {t : TaskState} {x : TaskId}
    (hget : mapGet s.tasks t.id = some t) (hp : t.status = .pending)
    (hx : ¬x = t.id) :
    canStartTask x (admitTask s t) = canStartTask x s := by
  have h1 : mapGet (admitTask s t).tasks x = mapGet s.tasks x :=
    mapGet_mapSet_ne _ _ hx
  have h2 : ∀ d, isDependencyCompleted d (admitTask s t).tasks =
      isDependencyCompleted d s.tasks := isDep_admit hget hp
  rw [canStartTask, canStartTask, h1]
  rcases mapGet s.tasks x with _ | tx
  · rfl
  · have : (fun depId => isDependencyCompleted depId (admitTask s t).tasks) =
        (fun depId => isDependencyCompleted depId s.tasks) := funext h2
    rw [this]

theorem canStart_admit_self {s : WorkflowState} {t : TaskState} :
    canStartTask t.id (admitTask s t) = false := by
  have h1 : mapGet (admitTask s t).tasks t.id = some
      { t with status := .running, startTime := some s.currentTime } :=
    mapGet_mapSet_self _ _ _
  simp [canStartTask, h1]

theorem filter_values_mapSet (P Q : TaskState → Bool) (k : TaskId)
    (t' : TaskState) (ht' : t'.id = k)
    (hQ : ∀ x : TaskState, ¬x.id = k → Q x = P x)
    (hQk : ∀ x : TaskState, x.id = k → Q x = false) :
    ∀ l : TaskMap, (l.map Prod.fst).Nodup → (∀ p ∈ l, p.2.id = p.1) →
    ((mapSet l k t').map Prod.snd).filter Q =
      ((l.map Prod.snd).filter P).filter (fun x => !(x.id = k)) := by
  intro l
  induction l with
  | nil =>
      intro _ _
      simp [mapSet, hQk t' ht']
  | cons p rest ih =>
      intro hkn hid
      rw [List.map_cons, List.nodup_cons] at hkn
      have hidr : ∀ q ∈ rest, q.2.id = q.1 :=
        fun q hq => hid q (List.mem_cons_of_mem _ hq)
      have hrest_ids : ∀ x ∈ rest.map Prod.snd, x.id ∈ rest.map Prod.fst := by
        intro x hx
        rcases List.mem_map.1 hx with ⟨q, hq, hqx⟩
        exact hqx ▸ (hidr q hq) ▸ List.mem_map_of_mem Prod.fst hq
      by_cases hk : p.1 = k
      · subst hk
        have hne : ∀ x ∈ rest.map Prod.snd, ¬x.id = p.1 := by
          intro x hx hxk
          exact hkn.1 (hxk ▸ hrest_ids x hx)
        have hfQ : (rest.map Prod.snd).filter Q = (rest.map Prod.snd).filter P :=
          List.filter_congr (fun x hx => hQ x (hne x hx))
        have hfid : ((rest.map Prod.snd).filter P).filter
            (fun x => !(x.id = p.1)) = (rest.map Prod.snd).filter P := by
          refine List.filter_eq_self.2 (fun x hx => ?_)
          simp [hne x (List.mem_of_mem_filter hx)]
        have hpid : p.2.id = p.1 := hid p (by simp)
        rcases hPv : P p.2 with _ | _
        · simp [mapSet, List.filter_cons, hQk t' ht', hPv, hfQ, hfid]
        · simp [mapSet, List.filter_cons, hQk t' ht', hPv, hpid, hfQ, hfid]
      · have hpid : p.2.id = p.1 := hid p (by simp)
        have hpne : ¬p.2.id = k := fun hh => hk (hpid ▸ hh)
        have ihr := ih hkn.2 hidr
        rcases hPv : P p.2 with _ | _
        · simp [mapSet, hk, List.filter_cons, hQ p.2 hpne, hPv, ihr]
        · simp [mapSet, hk, List.filter_cons, hQ p.2 hpne, hPv, hpne, ihr]

theorem avail_admitTask {s : WorkflowState} {t : TaskState} {rest : List TaskState}
    (hkn : (s.tasks.map Prod.fst).Nodup) (hid : ∀ p ∈ s.tasks, p.2.id = p.1)
    (hav : getAvailableTasks s = t :: rest) :
    getAvailableTasks (admitTask s t) = rest := by
  have hmem : t ∈ getAvailableTasks s := by rw [hav]; simp
  have hget : mapGet s.tasks t.id = some t := avail_mem_get hkn hid hmem
  have hcs : canStartTask t.id s = true := avail_mem_canStart hmem
  have hp : t.status = .pending := canStart_pending hget hcs
  have hids_nd : ((getAvailableTasks s).map (fun x => x.id)).Nodup := by
    have hsub : List.Sublist ((getAvailableTasks s).map (fun x => x.id))
        ((s.tasks.map Prod.snd).map (fun x => x.id)) :=
      (List.filter_sublist _).map _
    rw [values_ids s.tasks hid] at hsub
    exact hkn.sublist hsub
  have hrest_ne : ∀ x ∈ rest, ¬x.id = t.id := by
    rw [hav] at hids_nd
    simp only [List.map_cons, List.nodup_cons] at hids_nd
    intro x hx hxk
    exact hids_nd.1 (hxk ▸ List.mem_map_of_mem (fun y => y.id) hx)
  have hmain := filter_values_mapSet
    (fun x => canStartTask x.id s)
    (fun x => canStartTask x.id (admitTask s t))
    t.id { t with status := .running, startTime := some s.currentTime } rfl
    (fun x hx => canStart_admit_ne hget hp hx)
    (fun x hx => by
      show canStartTask x.id (admitTask s t) = false
      rw [hx]; exact canStart_admit_self)
    s.tasks hkn hid
  show ((mapSet s.tasks t.id _).map Prod.snd).filter _ = rest
  rw [hmain]
  show ((s.tasks.map Prod.snd).filter (fun x => canStartTask x.id s)).filter _ = rest
  have : (s.tasks.map Prod.snd).filter (fun x => canStartTask x.id s) = t :: rest := hav
  rw [this, List.filter_cons]
  simp only [decide_eq_true_eq, Bool.not_eq_true']
  rw [if_neg (by simp)]
  exact List.filter_eq_self.2 (fun x hx => by simp [hrest_ne x hx])

/-! ## Admission pass: loop characterization -/

theorem Ctx_admitTask {s : WorkflowState} {t : TaskState} {rest : List TaskState}
    (hc : Ctx s) (hav : getAvailableTasks s = t :: rest) :
    Ctx (admitTask s t) := by
  have hmem : t ∈ getAvailableTasks s := by rw [hav]; simp
  have hget : mapGet s.tasks t.id = some t :=
    avail_mem_get hc.keysNodup hc.idMatch hmem
  have hp : t.status = .pending := canStart_pending hget (avail_mem_canStart hmem)
  have hkeys : (admitTask s t).tasks.map Prod.fst = s.tasks.map Prod.fst :=
    keys_mapSet_of_mem _ (mem_keys_of_mapGet hget)
  refine ⟨by rw [hkeys]; exact hc.keysNodup, ?_, ?_⟩
  · intro p hp'
    rcases mem_mapSet hp' with h | h
    · exact hc.idMatch p h
    · rw [h]
  · intro x hx
    by_cases hxt : x = t.id
    · rw [hxt] at hx
      rw [canStart_admit_self] at hx
      exact absurd hx (by simp)
    · rw [canStart_admit_ne hget hp hxt] at hx
      have hnin := hc.readyNotRun x hx
      show x ∉ (admitTask s t).runningTasks
      intro hmem'
      rcases mem_setAdd.1 hmem' with h | h
      · exact hnin h
      · exact hxt h

theorem admit_running {s : WorkflowState} {t : TaskState} {rest : List TaskState}
    (hc : Ctx s) (hav : getAvailableTasks s = t :: rest) :
    (admitTask s t).runningTasks = s.runningTasks ++ [t.id] := by
  have hmem : t ∈ getAvailableTasks s := by rw [hav]; simp
  exact setAdd_of_not_mem (hc.readyNotRun t.id (avail_mem_canStart hmem))

theorem aux_time (fuel : Nat) (s : WorkflowState) :
    (startNewTasksAux fuel s).1.currentTime = s.currentTime := by
  induction fuel generalizing s with
  | zero => rfl
  | succ n ih =>
      rw [startNewTasksAux]
      by_cases hg : s.runningTasks.length < s.maxConcurrent
      · rcases hav : getAvailableTasks s with _ | ⟨t, rest⟩
        · simp [hg, hav]
        · simp only [hg, hav, if_pos]
          exact ih (admitTask s t)
      · simp [hg]

theorem aux_max (fuel : Nat) (s : WorkflowState) :
    (startNewTasksAux fuel s).1.maxConcurrent = s.maxConcurrent := by
  induction fuel generalizing s with
  | zero => rfl
  | succ n ih =>
      rw [startNewTasksAux]
      by_cases hg : s.runningTasks.length < s.maxConcurrent
      · rcases hav : getAvailableTasks s with _ | ⟨t, rest⟩
        · simp [hg, hav]
        · simp only [hg, hav, if_pos]
          exact ih (admitTask s t)
      · simp [hg]

theorem aux_keys (fuel : Nat) (s : WorkflowState) :
    (startNewTasksAux fuel s).1.tasks.map Prod.fst = s.tasks.map Prod.fst := by
  induction fuel generalizing s with
  | zero => rfl
  | succ n ih =>
      rw [startNewTasksAux]
      by_cases hg : s.runningTasks.length < s.maxConcurrent
      · rcases hav : getAvailableTasks s with _ | ⟨t, rest⟩
        · simp [hg, hav]
        · simp only [hg, hav, if_pos]
          rw [ih (admitTask s t)]
          show (mapSet s.tasks t.id _).map Prod.fst = _
          by_cases hmem : t.id ∈ s.tasks.map Prod.fst
          · exact keys_mapSet_of_mem _ hmem
          · rcases hv : mapGet s.tasks t.id with _ | t0
            · have ht : t ∈ getAvailableTasks s := by rw [hav]; simp
              have := avail_mem_canStart ht
              rw [canStartTask, hv] at this
              exact absurd this (by simp)
            · exact absurd (mem_keys_of_mapGet hv) hmem
      · simp [hg]

theorem aux_run_len (fuel : Nat) (s : WorkflowState) :
    s.runningTasks.length ≤ (startNewTasksAux fuel s).1.runningTasks.length := by
  induction fuel generalizing s with
  | zero => exact Nat.le_refl _
  | succ n ih =>
      rw [startNewTasksAux]
      by_cases hg : s.runningTasks.length < s.maxConcurrent
      · rcases hav : getAvailableTasks s with _ | ⟨t, rest⟩
        · simp [hg, hav]
        · simp only [hg, hav, if_pos]
          refine Nat.le_trans ?_ (ih (admitTask s t))
          show s.runningTasks.length ≤ (setAdd s.runningTasks t.id).length
          exact length_le_setAdd _ _
      · simp [hg]

theorem aux_trace (fuel : Nat) (s : WorkflowState) (hc : Ctx s) :
    (startNewTasksAux fuel s).2 =
      ((getAvailableTasks s).map (fun t => t.id)).take
        (min fuel (s.maxConcurrent - s.runningTasks.length)) := by
  induction fuel generalizing s with
  | zero => simp [startNewTasksAux]
  | succ n ih =>
      rw [startNewTasksAux]
      by_cases hg : s.runningTasks.length < s.maxConcurrent
      · rcases hav : getAvailableTasks s with _ | ⟨t, rest⟩
        · simp [hg, hav]
        · simp only [hg, hav, if_pos]
          have hrec := ih (admitTask s t) (Ctx_admitTask hc hav)
          rw [avail_admitTask hc.keysNodup hc.idMatch hav] at hrec
          have hlen : (admitTask s t).runningTasks.length =
              s.runningTasks.length + 1 := by
            rw [admit_running hc hav]; simp
          have hmax : (admitTask s t).maxConcurrent = s.maxConcurrent := rfl
          have harith : min n (s.maxConcurrent - (s.runningTasks.length + 1)) + 1 =
              min (n + 1) (s.maxConcurrent - s.runningTasks.length) := by
            omega
          show t.id :: (startNewTasksAux n (admitTask s t)).2 = _
          rw [hrec, hlen, hmax, List.map_cons, ← harith, List.take_succ_cons]
      · have hz : s.maxConcurrent - s.runningTasks.length = 0 :=
          Nat.sub_eq_zero_of_le (Nat.le_of_not_lt hg)
        simp [hg, hz]

theorem aux_running (fuel : Nat) (s : WorkflowState) (hc : Ctx s) :
    (startNewTasksAux fuel s).1.runningTasks =
      s.runningTasks ++ (startNewTasksAux fuel s).2 := by
  induction fuel generalizing s with
  | zero => simp [startNewTasksAux]
  | succ n ih =>
      rw [startNewTasksAux]
      by_cases hg : s.runningTasks.length < s.maxConcurrent
      · rcases hav : getAvailableTasks s with _ | ⟨t, rest⟩
        · simp [hg, hav]
        · simp only [hg, hav, if_pos]
          show (startNewTasksAux n (admitTask s t)).1.runningTasks =
            s.runningTasks ++ t.id :: (startNewTasksAux n (admitTask s t)).2
          rw [ih (admitTask s t) (Ctx_admitTask hc hav), admit_running hc hav]
          simp
      · simp [hg]

theorem aux_exit (fuel : Nat) (s : WorkflowState) (hc : Ctx s)
    (hfuel : (getAvailableTasks s).length ≤ fuel) :
    getAvailableTasks (startNewTasksAux fuel s).1 = [] ∨
      ¬((startNewTasksAux fuel s).1.runningTasks.length <
        (startNewTasksAux fuel s).1.maxConcurrent) := by
  induction fuel generalizing s with
  | zero =>
      left
      have : getAvailableTasks s = [] :=
        List.length_eq_zero.1 (Nat.le_antisymm hfuel (Nat.zero_le _))
      simpa [startNewTasksAux] using this
  | succ n ih =>
      rw [startNewTasksAux]
      by_cases hg : s.runningTasks.length < s.maxConcurrent
      · rcases hav : getAvailableTasks s with _ | ⟨t, rest⟩
        · left; simp [hg, hav]
        · simp only [hg, hav, if_pos]
          refine ih (admitTask s t) (Ctx_admitTask hc hav) ?_
          rw [avail_admitTask hc.keysNodup hc.idMatch hav]
          have : (getAvailableTasks s).length = rest.length + 1 := by
            rw [hav]; simp
          omega
      · right; simp [hg]

theorem aux_entry_shape (fuel : Nat) (s : WorkflowState) (hc : Ctx s)
    (id : TaskId) (et' : TaskState)
    (h : mapGet (startNewTasksAux fuel s).1.tasks id = some et') :
    ∃ et, mapGet s.tasks id = some et ∧ et'.time = et.time ∧
      et'.deps = et.deps := by
  induction fuel generalizing s et' with
  | zero => exact ⟨et', h, rfl, rfl⟩
  | succ n ih =>
      rw [startNewTasksAux] at h
      by_cases hg : s.runningTasks.length < s.maxConcurrent
      · rcases hav : getAvailableTasks s with _ | ⟨t, rest⟩
        · rw [hav] at h; simp only [hg, if_pos] at h
          exact ⟨et', h, rfl, rfl⟩
        · rw [hav] at h; simp only [hg, if_pos] at h
          rcases ih (admitTask s t) (Ctx_admitTask hc hav) et' h with ⟨et, hget, ht, hd⟩
          simp only [admitTask] at hget
          by_cases hidt : id = t.id
          · rw [hidt] at hget ⊢
            rw [mapGet_mapSet_self] at hget
            have htget : mapGet s.tasks t.id = some t :=
              avail_mem_get hc.keysNodup hc.idMatch (by rw [hav]; simp)
            injection hget with hinj
            refine ⟨t, htget, ?_, ?_⟩
            · rw [ht, ← hinj]
            · rw [hd, ← hinj]
          · rw [mapGet_mapSet_ne _ _ hidt] at hget
            exact ⟨et, hget, ht, hd⟩
      · simp only [hg, if_neg, if_false] at h
        exact ⟨et', h, rfl, rfl⟩

/-! ## The reachable-state invariant -/

theorem isDep_elim {d : TaskId} {m : TaskMap}
    (h : isDependencyCompleted d m = true) :
    ∃ dt, mapGet m d = some dt ∧ dt.status = .completed := by
  rw [isDependencyCompleted] at h
  rcases hg : mapGet m d with _ | dt
  · rw [hg] at h; exact absurd h (by simp)
  · rw [hg] at h; exact ⟨dt, rfl, by simpa using h⟩

theorem canStart_elim {x : TaskId} {s : WorkflowState}
    (h : canStartTask x s = true) :
    ∃ t, mapGet s.tasks x = some t ∧ t.status = .pending ∧
      ∀ d ∈ t.deps, isDependencyCompleted d s.tasks = true := by
  rw [canStartTask] at h
  rcases hg : mapGet s.tasks x with _ | t
  · rw [hg] at h; exact absurd h (by simp)
  · rw [hg] at h
    simp only [Bool.and_eq_true, decide_eq_true_eq, List.all_eq_true] at h
    exact ⟨t, rfl, h.1, h.2⟩

theorem WF.toCtx {s : WorkflowState} (hwf : WF s) : Ctx s := by
  refine ⟨hwf.keysNodup, hwf.idMatch, ?_⟩
  intro x hx hmem
  rcases canStart_elim hx with ⟨t, hget, hp, _⟩
  rcases hwf.cohF x hmem with ⟨t', hget', hr⟩
  rw [hget] at hget'
  injection hget' with hinj
  rw [← hinj] at hr
  rw [hp] at hr
  exact absurd hr (by simp)

/-! ### The invariant holds initially -/

theorem keysNodup_mapSet {m : TaskMap} (k : TaskId) (v : TaskState)
    (h : (m.map Prod.fst).Nodup) : ((mapSet m k v).map Prod.fst).Nodup := by
  by_cases hmem : k ∈ m.map Prod.fst
  · rw [keys_mapSet_of_mem v hmem]; exact h
  · rw [keys_mapSet_of_not_mem v hmem]
    simp [List.nodup_append, h, hmem]

theorem initialTaskMap_keysNodup (tasks : List Task) :
    ((initialTaskMap tasks).map Prod.fst).Nodup := by
  rw [initialTaskMap]
  suffices hgen : ∀ (ts : List Task) (m : TaskMap), (m.map Prod.fst).Nodup →
      ((ts.foldl (fun m t => mapSet m t.id (createTaskState t)) m).map
        Prod.fst).Nodup from hgen tasks [] (by simp)
  intro ts
  induction ts with
  | nil => intro m h; exact h
  | cons t ts ih =>
      intro m h
      exact ih _ (keysNodup_mapSet _ _ h)

theorem initialTaskMap_entries (tasks : List Task) :
    ∀ p ∈ initialTaskMap tasks,
      ∃ task ∈ tasks, p = (task.id, createTaskState task) := by
  rw [initialTaskMap]
  suffices hgen : ∀ (ts : List Task) (m : TaskMap),
      (∀ p ∈ m, ∃ task ∈ tasks, p = (task.id, createTaskState task)) →
      (∀ t ∈ ts, t ∈ tasks) →
      ∀ p ∈ ts.foldl (fun m t => mapSet m t.id (createTaskState t)) m,
        ∃ task ∈ tasks, p = (task.id, createTaskState task) from
    hgen tasks [] (by simp) (fun t ht => ht)
  intro ts
  induction ts with
  | nil => intro m hm _ p hp; exact hm p hp
  | cons t ts ih =>
      intro m hm hts p hp
      refine ih _ ?_ (fun x hx => hts x (List.mem_cons_of_mem _ hx)) p hp
      intro q hq
      rcases mem_mapSet hq with h | h
      · exact hm q h
      · exact ⟨t, hts t (by simp), h⟩

theorem keys_mono_mapSet {m : TaskMap} {k' : TaskId} (k : TaskId)
    (v : TaskState) (h : k' ∈ m.map Prod.fst) :
    k' ∈ (mapSet m k v).map Prod.fst := by
  by_cases hmem : k ∈ m.map Prod.fst
  · rw [keys_mapSet_of_mem v hmem]; exact h
  · rw [keys_mapSet_of_not_mem v hmem]; exact List.mem_append_left _ h

theorem mem_keys_initialTaskMap {tasks : List Task} {t : Task}
    (h : t ∈ tasks) : t.id ∈ (initialTaskMap tasks).map Prod.fst := by
  rw [initialTaskMap]
  suffices hgen : ∀ (ts : List Task) (m : TaskMap),
      (t ∈ ts ∨ t.id ∈ m.map Prod.fst) →
      t.id ∈ (ts.foldl (fun m t => mapSet m t.id (createTaskState t)) m).map
        Prod.fst from hgen tasks [] (Or.inl h)
  intro ts
  induction ts with
  | nil =>
      intro m hm
      rcases hm with hm | hm
      · simp at hm
      · exact hm
  | cons x ts ih =>
      intro m hm
      rcases hm with hm | hm
      · rcases List.mem_cons.1 hm with hm | hm
        · subst hm
          refine ih _ (Or.inr ?_)
          have := mapGet_mapSet_self m t.id (createTaskState t)
          exact mem_keys_of_mapGet this
        · exact ih _ (Or.inl hm)
      · exact ih _ (Or.inr (keys_mono_mapSet _ _ hm))

theorem WF_init (tasks : List Task) (maxC : Nat) :
    WF (initializeWorkflow tasks maxC) := by
  have hent : ∀ id t, mapGet (initializeWorkflow tasks maxC).tasks id = some t →
      t.status = .pending ∧ t.startTime = none ∧ t.endTime = none ∧ t.id = id := by
    intro id t hget
    rcases initialTaskMap_entries tasks _ (mem_of_mapGet hget) with ⟨task, _, hp⟩
    injection hp with h1 h2
    subst h1
    rw [h2]
    exact ⟨rfl, rfl, rfl, rfl⟩
  refine ⟨initialTaskMap_keysNodup tasks, ?_, ?_, ?_, ?_, ?_, ?_, ?_, ?_, ?_⟩
  · intro p hp
    rcases initialTaskMap_entries tasks p hp with ⟨task, _, h⟩
    rw [h]; rfl
  · intro id t hget _
    exact ⟨(hent id t hget).2.1, (hent id t hget).2.2.1⟩
  · intro id t hget hr
    rw [(hent id t hget).1] at hr
    exact absurd hr (by simp)
  · intro id t hget hcp
    rw [(hent id t hget).1] at hcp
    exact absurd hcp (by simp)
  · intro id hid
    exact absurd hid (by simp [initializeWorkflow])
  · intro id t hget hr
    rw [(hent id t hget).1] at hr
    exact absurd hr (by simp)
  · show ([] : List TaskId).Nodup
    simp
  · show ([] : List TaskId).length ≤ maxC
    simp
  · intro id t hget hnp
    exact absurd (hent id t hget).1 hnp

/-! ### The invariant is preserved by the completion pass -/

theorem WF_updateRunning {s : WorkflowState} (hwf : WF s) :
    WF (updateRunningTasks s) := by
  have hget := updateRunning_get s hwf.runNodup
  have hrun := updateRunning_run s hwf.runNodup
  have hkeys := updateRunning_keys s
  have hcase : ∀ id t', mapGet (updateRunningTasks s).tasks id = some t' →
      (mapGet s.tasks id = some t' ∧
        ¬(id ∈ s.runningTasks ∧ doneNow s.currentTime s.tasks id = true)) ∨
      (∃ t, mapGet s.tasks id = some t ∧ t' = markDone s.currentTime t ∧
        t.status = .running ∧ id ∈ s.runningTasks ∧
        doneNow s.currentTime s.tasks id = true) := by
    intro id t' h
    rw [hget id] at h
    by_cases hc : id ∈ s.runningTasks ∧ doneNow s.currentTime s.tasks id = true
    · right
      rw [if_pos hc] at h
      rcases hwf.cohF id hc.1 with ⟨t0, hg0, hr0⟩
      rw [hg0] at h
      simp only [Option.map] at h
      injection h with he
      exact ⟨t0, hg0, he.symm, hr0, hc⟩
    · left
      rw [if_neg hc] at h
      exact ⟨h, hc⟩
  have hmemrun : ∀ id, id ∈ (updateRunningTasks s).runningTasks ↔
      (id ∈ s.runningTasks ∧ ¬doneNow s.currentTime s.tasks id = true) := by
    intro id
    rw [hrun, List.mem_filter]
    simp
  refine ⟨?_, ?_, ?_, ?_, ?_, ?_, ?_, ?_, ?_, ?_⟩
  · rw [hkeys]; exact hwf.keysNodup
  · intro p hp
    have hnd : ((updateRunningTasks s).tasks.map Prod.fst).Nodup := by
      rw [hkeys]; exact hwf.keysNodup
    have hg := mapGet_of_mem hnd hp
    rcases hcase p.1 p.2 hg with ⟨h, _⟩ | ⟨t, hg1, he, _, _, _⟩
    · exact hwf.idMatch p (mem_of_mapGet h)
    · have := hwf.idMatch (p.1, t) (mem_of_mapGet hg1)
      rw [he]
      exact this
  · intro id t hg hp
    rcases hcase id t hg with ⟨h, _⟩ | ⟨t0, _, he, _, _, _⟩
    · exact hwf.pendingOK id t h hp
    · rw [he] at hp
      exact absurd hp (by simp [markDone])
  · intro id t hg hr
    rcases hcase id t hg with ⟨h, _⟩ | ⟨t0, _, he, _, _, _⟩
    · rcases hwf.runningOK id t h hr with ⟨st, h1, h2, h3⟩
      exact ⟨st, h1, by rw [updateRunning_time]; exact h2, h3⟩
    · rw [he] at hr
      exact absurd hr (by simp [markDone])
  · intro id t hg hcp
    rcases hcase id t hg with ⟨h, _⟩ | ⟨t0, _, he, _, _, _⟩
    · rcases hwf.completedOK id t h hcp with ⟨e, h1, h2⟩
      exact ⟨e, h1, by rw [updateRunning_time]; exact h2⟩
    · refine ⟨s.currentTime, ?_, by rw [updateRunning_time]⟩
      simp [he, markDone]
  · intro id hid
    rcases (hmemrun id).1 hid with ⟨hmem, hnd⟩
    rcases hwf.cohF id hmem with ⟨t, hg, hr⟩
    refine ⟨t, ?_, hr⟩
    rw [hget id, if_neg (by intro hc; exact hnd hc.2)]
    exact hg
  · intro id t hg hr
    rcases hcase id t hg with ⟨h, hnc⟩ | ⟨t0, _, he, _, _, _⟩
    · have hmem := hwf.cohB id t h hr
      exact (hmemrun id).2 ⟨hmem, fun hd => hnc ⟨hmem, hd⟩⟩
    · rw [he] at hr
      exact absurd hr (by simp [markDone])
  · rw [hrun]; exact hwf.runNodup.filter _
  · rw [hrun]
    show ((s.runningTasks.filter _).length ≤ (updateRunningTasks s).maxConcurrent)
    rw [updateRunning_max]
    exact Nat.le_trans (List.length_filter_le _ _) hwf.runBound
  · intro id t hg hnp
    have hfrom : ∃ t0, mapGet s.tasks id = some t0 ∧ ¬t0.status = .pending ∧
        t.startTime = t0.startTime ∧ t.deps = t0.deps := by
      rcases hcase id t hg with ⟨h, _⟩ | ⟨t0, hg1, he, hr0, _, _⟩
      · exact ⟨t, h, hnp, rfl, rfl⟩
      · exact ⟨t0, hg1, by rw [hr0]; simp, by rw [he]; rfl, by rw [he]; rfl⟩
    rcases hfrom with ⟨t0, hg0, hnp0, hst, hdp⟩
    intro d hd
    rw [hdp] at hd
    rcases hwf.depsOK id t0 hg0 hnp0 d hd with ⟨dt, hgd, hcd, st, e, h1, h2, h3⟩
    have hdnr : d ∉ s.runningTasks := by
      intro hmem
      rcases hwf.cohF d hmem with ⟨dt', hgd', hr'⟩
      rw [hgd] at hgd'
      injection hgd' with he'
      rw [← he', hcd] at hr'
      exact absurd hr' (by simp)
    refine ⟨dt, ?_, hcd, st, e, by rw [hst]; exact h1, h2, h3⟩
    rw [hget d, if_neg (by intro hc; exact hdnr hc.1)]
    exact hgd

/-! ### The invariant is preserved by the admission pass -/

theorem WF_admitTask {s : WorkflowState} {t : TaskState} {rest : List TaskState}
    (hwf : WF s) (hav : getAvailableTasks s = t :: rest)
    (hg : s.runningTasks.length < s.maxConcurrent) :
    WF (admitTask s t) := by
  have hmem : t ∈ getAvailableTasks s := by rw [hav]; simp
  have hget : mapGet s.tasks t.id = some t :=
    avail_mem_get hwf.keysNodup hwf.idMatch hmem
  have hcs : canStartTask t.id s = true := avail_mem_canStart hmem
  have hp : t.status = .pending := canStart_pending hget hcs
  have hpe : t.startTime = none ∧ t.endTime = none :=
    hwf.pendingOK t.id t hget hp
  have hdeps : ∀ d ∈ t.deps, isDependencyCompleted d s.tasks = true := by
    rcases canStart_elim hcs with ⟨t0, hg0, _, hall⟩
    rw [hget] at hg0
    injection hg0 with he
    rw [he]
    exact hall
  have hrun : (admitTask s t).runningTasks = s.runningTasks ++ [t.id] :=
    admit_running hwf.toCtx hav
  have htnr : t.id ∉ s.runningTasks := hwf.toCtx.readyNotRun t.id hcs
  have hgcase : ∀ id, mapGet (admitTask s t).tasks id =
      if id = t.id
      then some { t with status := Status.running, startTime := some s.currentTime }
      else mapGet s.tasks id := by
    intro id
    by_cases hid : id = t.id
    · rw [if_pos hid, hid]
      exact mapGet_mapSet_self _ _ _
    · rw [if_neg hid]
      exact mapGet_mapSet_ne _ _ hid
  have hdep_ne : ∀ d dt, mapGet s.tasks d = some dt →
      dt.status = .completed → ¬d = t.id := by
    intro d dt hgd hcd hdt
    rw [hdt, hget] at hgd
    injection hgd with he
    rw [← he, hp] at hcd
    exact absurd hcd (by simp)
  refine ⟨?_, ?_, ?_, ?_, ?_, ?_, ?_, ?_, ?_, ?_⟩
  · show ((mapSet s.tasks t.id _).map Prod.fst).Nodup
    rw [keys_mapSet_of_mem _ (mem_keys_of_mapGet hget)]
    exact hwf.keysNodup
  · intro p hp'
    rcases mem_mapSet hp' with h | h
    · exact hwf.idMatch p h
    · rw [h]
  · intro id t' hg' hpd
    rw [hgcase id] at hg'
    by_cases hid : id = t.id
    · rw [if_pos hid] at hg'
      injection hg' with he
      rw [← he] at hpd
      exact absurd hpd (by simp)
    · rw [if_neg hid] at hg'
      exact hwf.pendingOK id t' hg' hpd
  · intro id t' hg' hr
    rw [hgcase id] at hg'
    by_cases hid : id = t.id
    · rw [if_pos hid] at hg'
      injection hg' with he
      refine ⟨s.currentTime, ?_, Nat.le_refl _, ?_⟩
      · rw [← he]
      · rw [← he]
        show t.endTime = none
        exact hpe.2
    · rw [if_neg hid] at hg'
      exact hwf.runningOK id t' hg' hr
  · intro id t' hg' hcp
    rw [hgcase id] at hg'
    by_cases hid : id = t.id
    · rw [if_pos hid] at hg'
      injection hg' with he
      rw [← he] at hcp
      exact absurd hcp (by simp)
    · rw [if_neg hid] at hg'
      exact hwf.completedOK id t' hg' hcp
  · intro id hid
    rw [hrun] at hid
    rcases List.mem_append.1 hid with h | h
    · rcases hwf.cohF id h with ⟨t', hg', hr'⟩
      have hne : ¬id = t.id := by
        intro hh; rw [hh] at h; exact htnr h
      refine ⟨t', ?_, hr'⟩
      rw [hgcase id, if_neg hne]
      exact hg'
    · have hid' : id = t.id := by simpa using h
      refine ⟨{ t with status := .running, startTime := some s.currentTime },
        ?_, rfl⟩
      rw [hgcase id, if_pos hid']
  · intro id t' hg' hr
    rw [hrun]
    rw [hgcase id] at hg'
    by_cases hid : id = t.id
    · rw [hid]; simp
    · rw [if_neg hid] at hg'
      exact List.mem_append_left _ (hwf.cohB id t' hg' hr)
  · rw [hrun]
    have : s.runningTasks.Nodup := hwf.runNodup
    simp [List.nodup_append, this, htnr]
  · rw [hrun]
    show (s.runningTasks ++ [t.id]).length ≤ (admitTask s t).maxConcurrent
    have hmax : (admitTask s t).maxConcurrent = s.maxConcurrent := rfl
    rw [hmax]
    simpa using hg
  · intro id t' hg' hnp
    rw [hgcase id] at hg'
    by_cases hid : id = t.id
    · rw [if_pos hid] at hg'
      injection hg' with he
      intro d hd
      have hdt : d ∈ t.deps := by
        rw [← he] at hd
        exact hd
      rcases isDep_elim (hdeps d hdt) with ⟨dt, hgd, hcd⟩
      rcases hwf.completedOK d dt hgd hcd with ⟨e, he1, he2⟩
      refine ⟨dt, ?_, hcd, s.currentTime, e, ?_, he1, he2⟩
      · rw [hgcase d, if_neg (hdep_ne d dt hgd hcd)]
        exact hgd
      · rw [← he]
    · rw [if_neg hid] at hg'
      intro d hd
      rcases hwf.depsOK id t' hg' hnp d hd with
        ⟨dt, hgd, hcd, st, e, h1, h2, h3⟩
      refine ⟨dt, ?_, hcd, st, e, h1, h2, h3⟩
      rw [hgcase d, if_neg (hdep_ne d dt hgd hcd)]
      exact hgd

theorem WF_aux {s : WorkflowState} (fuel : Nat) (hwf : WF s) :
    WF (startNewTasksAux fuel s).1 := by
  induction fuel generalizing s with
  | zero => exact hwf
  | succ n ih =>
      rw [startNewTasksAux]
      by_cases hg : s.runningTasks.length < s.maxConcurrent
      · rcases hav : getAvailableTasks s with _ | ⟨t, rest⟩
        · simp only [hg, hav, if_pos]
          exact hwf
        · simp only [hg, hav, if_pos]
          exact ih (WF_admitTask hwf hav hg)
      · simp only [hg, if_neg, if_false]
        exact hwf

theorem WF_startNewTasks {s : WorkflowState} (hwf : WF s) :
    WF (startNewTasks s) :=
  WF_aux s.tasks.length hwf

theorem WF_bump {s : WorkflowState} (hwf : WF s) :
    WF { s with currentTime := s.currentTime + 1 } := by
  refine ⟨hwf.keysNodup, hwf.idMatch, hwf.pendingOK, ?_, ?_, hwf.cohF,
    hwf.cohB, hwf.runNodup, hwf.runBound, hwf.depsOK⟩
  · intro id t hg hr
    rcases hwf.runningOK id t hg hr with ⟨st, h1, h2, h3⟩
    exact ⟨st, h1, Nat.le_succ_of_le h2, h3⟩
  · intro id t hg hcp
    rcases hwf.completedOK id t hg hcp with ⟨e, h1, h2⟩
    exact ⟨e, h1, Nat.le_succ_of_le h2⟩

theorem WF_next {s : WorkflowState} (hwf : WF s) : WF (next s).1 := by
  rw [next]
  have h1 : WF (startNewTasks (updateRunningTasks s)) :=
    WF_startNewTasks (WF_updateRunning hwf)
  by_cases hc : (startNewTasks (updateRunningTasks s)).runningTasks.length > 0
  · simp only [hc, if_pos]
    exact WF_bump h1
  · simp only [hc, if_neg, if_false]
    exact h1

theorem WF_stepN (tasks : List Task) (maxC : Nat) (n : Nat) :
    WF (stepN (initializeWorkflow tasks maxC) n) := by
  induction n with
  | zero => exact WF_init tasks maxC
  | succ n ih => exact WF_next ih

/-! ## Shape of a tick -/

theorem next_max (s : WorkflowState) :
    (next s).1.maxConcurrent = s.maxConcurrent := by
  rw [next]
  by_cases hc : (startNewTasks (updateRunningTasks s)).runningTasks.length > 0
  · simp only [hc, if_pos]
    show (startNewTasks (updateRunningTasks s)).maxConcurrent = s.maxConcurrent
    rw [startNewTasks, aux_max, updateRunning_max]
  · simp only [hc, if_neg, if_false]
    rw [startNewTasks, aux_max, updateRunning_max]

theorem next_keys (s : WorkflowState) :
    (next s).1.tasks.map Prod.fst = s.tasks.map Prod.fst := by
  rw [next]
  by_cases hc : (startNewTasks (updateRunningTasks s)).runningTasks.length > 0
  · simp only [hc, if_pos]
    show (startNewTasks (updateRunningTasks s)).tasks.map Prod.fst = _
    rw [startNewTasks, aux_keys, updateRunning_keys]
  · simp only [hc, if_neg, if_false]
    rw [startNewTasks, aux_keys, updateRunning_keys]

theorem stepN_max (tasks : List Task) (maxC : Nat) (n : Nat) :
    (stepN (initializeWorkflow tasks maxC) n).maxConcurrent = maxC := by
  induction n with
  | zero => rfl
  | succ n ih => rw [stepN, next_max, ih]

/-! ## Status monotonicity -/

theorem statusLe_refl (a : Status) : statusLe a a := Nat.le_refl _

theorem statusLe_trans {a b c : Status} (h1 : statusLe a b)
    (h2 : statusLe b c) : statusLe a c := Nat.le_trans h1 h2

theorem statusLe_completed (a : Status) : statusLe a .completed := by
  cases a <;> simp [statusLe, statusRank]

theorem pending_statusLe (a : Status) : statusLe .pending a := by
  cases a <;> simp [statusLe, statusRank]

theorem statusLe_completeFold (ct : Nat) :
    ∀ (L : List TaskId) (m : TaskMap) (r : List TaskId) (id : TaskId),
    statusLe (mapStatus m id)
      (mapStatus (L.foldl (completeOne ct) (m, r)).1 id) := by
  intro L
  induction L with
  | nil => intro m r id; exact statusLe_refl _
  | cons a L ih =>
      intro m r id
      rw [List.foldl_cons]
      rcases hma : mapGet m a with _ | t
      · have hstep : completeOne ct (m, r) a = (m, r) := by
          simp [completeOne, hma]
        rw [hstep]; exact ih m r id
      · by_cases hc : t.startTime.getD 0 + t.time ≤ ct
        · have hstep : completeOne ct (m, r) a =
              (mapSet m a (markDone ct t), setDelete r a) := by
            simp [completeOne, hma, hc]
          rw [hstep]
          refine statusLe_trans ?_ (ih _ _ id)
          by_cases hid : id = a
          · rw [hid]
            have h1 : mapStatus (mapSet m a (markDone ct t)) a = .completed := by
              simp [mapStatus, mapGet_mapSet_self, markDone]
            rw [h1]
            exact statusLe_completed _
          · have h1 : mapStatus (mapSet m a (markDone ct t)) id =
                mapStatus m id := by
              simp only [mapStatus, mapGet_mapSet_ne _ _ hid]
            rw [h1]
            exact statusLe_refl _
        · have hstep : completeOne ct (m, r) a = (m, r) := by
            simp [completeOne, hma, hc]
          rw [hstep]; exact ih m r id

theorem statusOf_updateRunning (s : WorkflowState) (id : TaskId) :
    statusLe (statusOf s id) (statusOf (updateRunningTasks s) id) :=
  statusLe_completeFold s.currentTime s.runningTasks s.tasks s.runningTasks id

theorem statusOf_aux (fuel : Nat) (s : WorkflowState) (id : TaskId) :
    statusLe (statusOf s id) (statusOf (startNewTasksAux fuel s).1 id) := by
  induction fuel generalizing s with
  | zero => exact statusLe_refl _
  | succ n ih =>
      rw [startNewTasksAux]
      by_cases hg : s.runningTasks.length < s.maxConcurrent
      · rcases hav : getAvailableTasks s with _ | ⟨t, rest⟩
        · simp only [hg, hav, if_pos]
          exact statusLe_refl _
        · simp only [hg, hav, if_pos]
          refine statusLe_trans ?_ (ih (admitTask s t))
          have hcs : canStartTask t.id s = true :=
            avail_mem_canStart (by rw [hav]; simp)
          rcases canStart_elim hcs with ⟨t0, hg0, hp0, _⟩
          by_cases hid : id = t.id
          · rw [hid]
            have h1 : statusOf s t.id = .pending := by
              simp [statusOf, mapStatus, hg0, hp0]
            rw [h1]
            exact pending_statusLe _
          · have h1 : statusOf (admitTask s t) id = statusOf s id := by
              simp only [statusOf, mapStatus, admitTask]
              rw [mapGet_mapSet_ne _ _ hid]
            rw [h1]
            exact statusLe_refl _
      · rw [if_neg hg]
        exact statusLe_refl _

theorem statusOf_next (s : WorkflowState) (id : TaskId) :
    statusLe (statusOf s id) (statusOf (next s).1 id) := by
  have h1 : statusLe (statusOf s id)
      (statusOf (startNewTasks (updateRunningTasks s)) id) :=
    statusLe_trans (statusOf_updateRunning s id)
      (statusOf_aux (updateRunningTasks s).tasks.length (updateRunningTasks s) id)
  rw [next]
  by_cases hc : (startNewTasks (updateRunningTasks s)).runningTasks.length > 0
  · simp only [hc, if_pos]
    exact h1
  · simp only [hc, if_neg, if_false]
    exact h1

/-! ## Driver fixpoints (unvalidated inputs) -/

theorem stepN_fix {s : WorkflowState} (h : next s = (s, true)) :
    ∀ n, stepN s n = s := by
  intro n
  induction n with
  | zero => rfl
  | succ n ih =>
      show (next (stepN s n)).1 = s
      rw [ih, h]

theorem runAllFuel_fix {s : WorkflowState} (h : next s = (s, true)) :
    ∀ fuel, runAllFuel fuel s = none := by
  intro fuel
  induction fuel with
  | zero => rfl
  | succ n ih =>
      rw [runAllFuel, h]
      exact ih

/-! ## Claim theorems -/

/-- C1: on the reference input `tasks_2` with maximum concurrency 2, the
simulation terminates and yields A:(0,3), B:(3,5), C:(3,4), D:(5,9),
E:(9,10) and final current time (makespan) 10. -/
theorem reference_scenario_correct :
    taskTimes (runAllFuel 12 (initializeWorkflow tasks_2 2)) "A" =
      some (some 0, some 3) ∧
    taskTimes (runAllFuel 12 (initializeWorkflow tasks_2 2)) "B" =
      some (some 3, some 5) ∧
    taskTimes (runAllFuel 12 (initializeWorkflow tasks_2 2)) "C" =
      some (some 3, some 4) ∧
    taskTimes (runAllFuel 12 (initializeWorkflow tasks_2 2)) "D" =
      some (some 5, some 9) ∧
    taskTimes (runAllFuel 12 (initializeWorkflow tasks_2 2)) "E" =
      some (some 9, some 10) ∧
    (runAllFuel 12 (initializeWorkflow tasks_2 2)).map
      (fun f => f.currentTime) = some 10 := by
  decide

/-- C3: at every reachable state of any run, and also between the two
passes of a tick, the size of the running set is at most the configured
maximum concurrency. -/
theorem concurrency_bound (tasks : List Task) (maxC n : Nat) :
    (stepN (initializeWorkflow tasks maxC) n).runningTasks.length ≤ maxC ∧
    (updateRunningTasks
      (stepN (initializeWorkflow tasks maxC) n)).runningTasks.length ≤ maxC ∧
    (startNewTasks (updateRunningTasks
      (stepN (initializeWorkflow tasks maxC) n))).runningTasks.length ≤ maxC := by
  have hwf := WF_stepN tasks maxC n
  have hmax := stepN_max tasks maxC n
  have h1 := hwf.runBound
  rw [hmax] at h1
  have hwu := WF_updateRunning hwf
  have h2 := hwu.runBound
  rw [updateRunning_max, hmax] at h2
  have hws := WF_startNewTasks hwu
  have h3 := hws.runBound
  have hm3 : (startNewTasks (updateRunningTasks
      (stepN (initializeWorkflow tasks maxC) n))).maxConcurrent = maxC := by
    show (startNewTasksAux _ _).1.maxConcurrent = maxC
    rw [aux_max, updateRunning_max, hmax]
  rw [hm3] at h3
  exact ⟨h1, h2, h3⟩

/-- C7: along any run, a task's status only ever moves forward in the
lifecycle order `pending → running → completed`, within each pass of a
tick and from one tick to the next; in particular no task ever moves
from `completed` to `running`, from `running` to `pending`, or from
`completed` to `pending`. -/
theorem status_monotonic (tasks : List Task) (maxC n : Nat) (id : TaskId) :
    statusLe (statusOf (stepN (initializeWorkflow tasks maxC) n) id)
      (statusOf (updateRunningTasks
        (stepN (initializeWorkflow tasks maxC) n)) id) ∧
    statusLe (statusOf (updateRunningTasks
        (stepN (initializeWorkflow tasks maxC) n)) id)
      (statusOf (startNewTasks (updateRunningTasks
        (stepN (initializeWorkflow tasks maxC) n))) id) ∧
    statusLe (statusOf (stepN (initializeWorkflow tasks maxC) n) id)
      (statusOf (stepN (initializeWorkflow tasks maxC) (n + 1)) id) :=
  ⟨statusOf_updateRunning _ id,
   statusOf_aux _ _ id,
   statusOf_next _ id⟩

/-- C9: in the admission pass of any tick, the tasks admitted are exactly
the first `maxConcurrent − |running|` ready tasks in the task map's
insertion order (the declaration order of the input list), admitted in
that order; the new running set is the old one extended by that trace.
Since all involved functions are pure, the schedule is a deterministic
function of the input list and the concurrency limit. -/
theorem admission_order (tasks : List Task) (maxC n : Nat) :
    admissionTrace (updateRunningTasks (stepN (initializeWorkflow tasks maxC) n)) =
      ((getAvailableTasks (updateRunningTasks
          (stepN (initializeWorkflow tasks maxC) n))).map (fun t => t.id)).take
        ((updateRunningTasks
            (stepN (initializeWorkflow tasks maxC) n)).maxConcurrent -
          (updateRunningTasks
            (stepN (initializeWorkflow tasks maxC) n)).runningTasks.length) ∧
    (startNewTasks (updateRunningTasks
        (stepN (initializeWorkflow tasks maxC) n))).runningTasks =
      (updateRunningTasks
        (stepN (initializeWorkflow tasks maxC) n)).runningTasks ++
        admissionTrace (updateRunningTasks
          (stepN (initializeWorkflow tasks maxC) n)) := by
  have hctx : Ctx (updateRunningTasks (stepN (initializeWorkflow tasks maxC) n)) :=
    (WF_updateRunning (WF_stepN tasks maxC n)).toCtx
  constructor
  · have htr := aux_trace
      (updateRunningTasks (stepN (initializeWorkflow tasks maxC) n)).tasks.length
      (updateRunningTasks (stepN (initializeWorkflow tasks maxC) n)) hctx
    rw [admissionTrace, htr]
    have hlen : ((getAvailableTasks (updateRunningTasks
        (stepN (initializeWorkflow tasks maxC) n))).map (fun t => t.id)).length ≤
        (updateRunningTasks (stepN (initializeWorkflow tasks maxC) n)).tasks.length := by
      rw [List.length_map]
      refine Nat.le_trans (List.length_filter_le _ _) ?_
      rw [List.length_map]
    rcases Nat.le_total
        ((updateRunningTasks (stepN (initializeWorkflow tasks maxC) n)).maxConcurrent -
          (updateRunningTasks (stepN (initializeWorkflow tasks maxC) n)).runningTasks.length)
        ((updateRunningTasks (stepN (initializeWorkflow tasks maxC) n)).tasks.length)
        with hle | hle
    · rw [Nat.min_eq_right hle]
    · rw [Nat.min_eq_left hle, List.take_of_length_le hlen,
        List.take_of_length_le (Nat.le_trans hlen hle)]
  · exact aux_running _ _ hctx

/-- C4 (code evaluation): the source performs no graph validation — on
the two-task cycle `A ↔ B` both constructors succeed, producing an
ordinary all-pending state, and the driver then loops forever: every
tick returns the same state with the continue flag set, and `runAll`
never exits no matter the fuel.  No error of any kind is raised. -/
theorem cycle_unvalidated_runs_forever :
    (initializeWorkflow cycleTasks 2).tasks =
      [("A", ⟨"A", 1, ["B"], .pending, none, none⟩),
       ("B", ⟨"B", 1, ["A"], .pending, none, none⟩)] ∧
    taskQueueInit cycleTasks 2 = initializeWorkflow cycleTasks 2 ∧
    (∀ n, stepN (initializeWorkflow cycleTasks 2) n =
      initializeWorkflow cycleTasks 2) ∧
    (∀ fuel, runAllFuel fuel (initializeWorkflow cycleTasks 2) = none) := by
  have hfix : next (initializeWorkflow cycleTasks 2) =
      (initializeWorkflow cycleTasks 2, true) := by decide
  exact ⟨by decide, by decide, stepN_fix hfix, runAllFuel_fix hfix⟩

/-- C6 (code evaluation): the driver has no iteration ceiling and no
internal-error kind — on an unresolvable input (a task with an unknown
dependency id) every tick returns the same state with the continue flag
set, so `runAll` loops forever: `runAllFuel` returns `none` for every
fuel value. -/
theorem unknown_dep_runs_forever :
    taskQueueInit unknownDepTasks 1 = initializeWorkflow unknownDepTasks 1 ∧
    (∀ n, stepN (initializeWorkflow unknownDepTasks 1) n =
      initializeWorkflow unknownDepTasks 1) ∧
    (∀ fuel, runAllFuel fuel (initializeWorkflow unknownDepTasks 1) = none) := by
  have hfix : next (initializeWorkflow unknownDepTasks 1) =
      (initializeWorkflow unknownDepTasks 1, true) := by decide
  exact ⟨by decide, stepN_fix hfix, runAllFuel_fix hfix⟩

/-- C8 (counterexample): initialization with maximum concurrency 0 does
not fail — it returns an ordinary state (time 0, the task pending, empty
running set), and the subsequent run signals no error either (it simply
never terminates). -/
theorem init_zero_concurrency_no_error :
    initializeWorkflow [⟨"A", 1, []⟩] 0 =
      ⟨[("A", ⟨"A", 1, [], .pending, none, none⟩)], 0, [], 0⟩ ∧
    runAllFuel 5 (initializeWorkflow [⟨"A", 1, []⟩] 0) = none := by
  exact ⟨by decide, by decide⟩

/-- C8 (amended): initialization never fails for any input and any
maximum concurrency (both the functional and the OOP constructor):
it yields time 0, an empty running set, the given concurrency limit and
all tasks `pending`; an empty task list is not an error — its run is
immediately terminal. -/
theorem initialization_never_fails (tasks : List Task) (maxC : Nat) :
    (initializeWorkflow tasks maxC).currentTime = 0 ∧
    (initializeWorkflow tasks maxC).runningTasks = [] ∧
    (initializeWorkflow tasks maxC).maxConcurrent = maxC ∧
    taskQueueInit tasks maxC = initializeWorkflow tasks maxC ∧
    (∀ id t, mapGet (initializeWorkflow tasks maxC).tasks id = some t →
      t.status = .pending ∧ t.startTime = none ∧ t.endTime = none) ∧
    next (initializeWorkflow [] maxC) = (initializeWorkflow [] maxC, false) := by
  refine ⟨rfl, rfl, rfl, rfl, ?_, rfl⟩
  intro id t hget
  rcases initialTaskMap_entries tasks _ (mem_of_mapGet hget) with ⟨task, _, hp⟩
  injection hp with h1 h2
  rw [h2]
  exact ⟨rfl, rfl, rfl⟩

/-- C8 witness: the amended claim applied to the reference input with
maximum concurrency 0. -/
theorem initialization_never_fails_witness :
    mapGet (initializeWorkflow tasks_2 0).tasks "A" =
      some ⟨"A", 3, [], .pending, none, none⟩ ∧
    (⟨"A", 3, [], .pending, none, none⟩ : TaskState).status = .pending ∧
    next (initializeWorkflow [] 0) = (initializeWorkflow [] 0, false) :=
  ⟨by decide,
   ((initialization_never_fails tasks_2 0).2.2.2.2.1 "A"
      ⟨"A", 3, [], .pending, none, none⟩ (by decide)).1,
   (initialization_never_fails tasks_2 0).2.2.2.2.2⟩

/-- C2: in every reachable state of any run, a task that is not
`pending` (i.e. one that has started) has every dependency mapped to a
`completed` task whose end time is at most the task's start time — so a
task starts only after all its dependencies completed, and its start
time is at least the maximum dependency end time; moreover a `pending`
task with no dependencies is always ready. -/
theorem dependency_safety (tasks : List Task) (maxC n : Nat) (id : TaskId)
    (t : TaskState)
    (hget : mapGet (stepN (initializeWorkflow tasks maxC) n).tasks id = some t) :
    (¬t.status = .pending → ∀ d ∈ t.deps,
      ∃ dt st e,
        mapGet (stepN (initializeWorkflow tasks maxC) n).tasks d = some dt ∧
        dt.status = .completed ∧ t.startTime = some st ∧
        dt.endTime = some e ∧ e ≤ st) ∧
    (t.deps = [] → t.status = .pending →
      canStartTask id (stepN (initializeWorkflow tasks maxC) n) = true) := by
  have hwf := WF_stepN tasks maxC n
  constructor
  · intro hnp d hd
    rcases hwf.depsOK id t hget hnp d hd with ⟨dt, h1, h2, st, e, h3, h4, h5⟩
    exact ⟨dt, st, e, h1, h2, h3, h4, h5⟩
  · intro hdeps hp
    rw [canStartTask, hget]
    simp [hp, hdeps]

/-- C2 witness: at tick 6 of the reference run, task `D` is running with
start time 5 and both its dependencies are completed with end times at
most 5. -/
theorem dependency_safety_witness :
    mapGet (stepN (initializeWorkflow tasks_2 2) 6).tasks "D" =
      some ⟨"D", 4, ["B", "C"], .running, some 5, none⟩ ∧
    (∀ d ∈ (⟨"D", 4, ["B", "C"], .running, some 5, none⟩ : TaskState).deps,
      ∃ dt st e,
        mapGet (stepN (initializeWorkflow tasks_2 2) 6).tasks d = some dt ∧
        dt.status = .completed ∧
        (⟨"D", 4, ["B", "C"], .running, some 5, none⟩ : TaskState).startTime =
          some st ∧
        dt.endTime = some e ∧ e ≤ st) :=
  ⟨by decide,
   (dependency_safety tasks_2 2 6 "D"
      ⟨"D", 4, ["B", "C"], .running, some 5, none⟩ (by decide)).1 (by decide)⟩

/-! ## C10: unknown dependency ids -/

theorem canStart_false_of_missing_dep {s : WorkflowState} {id d : TaskId}
    {t : TaskState} (hget : mapGet s.tasks id = some t) (hd : d ∈ t.deps)
    (hmiss : mapGet s.tasks d = none) : canStartTask id s = false := by
  rw [canStartTask, hget]
  have hdep : isDependencyCompleted d s.tasks = false := by
    rw [isDependencyCompleted, hmiss]
  have hall : t.deps.all (fun depId => isDependencyCompleted depId s.tasks) =
      false := by
    rw [List.all_eq_false]
    exact ⟨d, hd, by simp [hdep]⟩
  simp [hall]

theorem aux_missing_dep (fuel : Nat) :
    ∀ (s : WorkflowState) (id d : TaskId) (t : TaskState),
    mapGet s.tasks id = some t → d ∈ t.deps → mapGet s.tasks d = none →
    mapGet (startNewTasksAux fuel s).1.tasks id = some t := by
  induction fuel with
  | zero => intro s id d t hget _ _; exact hget
  | succ n ih =>
      intro s id d t hget hd hmiss
      rw [startNewTasksAux]
      by_cases hg : s.runningTasks.length < s.maxConcurrent
      · rcases hav : getAvailableTasks s with _ | ⟨t1, rest⟩
        · simp only [hg, hav, if_pos]
          exact hget
        · simp only [hg, hav, if_pos]
          have hcs : canStartTask t1.id s = true :=
            avail_mem_canStart (by rw [hav]; simp)
          have hne : ¬id = t1.id := by
            intro hh
            rw [← hh] at hcs
            rw [canStart_false_of_missing_dep hget hd hmiss] at hcs
            exact absurd hcs (by simp)
          have hdne : ¬d = t1.id := by
            intro hh
            rcases canStart_elim hcs with ⟨t0, hg0, _, _⟩
            rw [← hh, hmiss] at hg0
            exact absurd hg0 (by simp)
          refine ih (admitTask s t1) id d t ?_ hd ?_
          · show mapGet (mapSet s.tasks t1.id _) id = some t
            rw [mapGet_mapSet_ne _ _ hne]
            exact hget
          · show mapGet (mapSet s.tasks t1.id _) d = none
            rw [mapGet_mapSet_ne _ _ hdne]
            exact hmiss
      · rw [if_neg hg]
        exact hget

/-- C10: a task with a dependency id that has no entry in the task map
is never considered ready and is never admitted, in both
implementations; the readiness lookups are total and simply evaluate to
`false` (no crash), and the admission pass leaves the task untouched. -/
theorem unknown_dep_never_ready (s : WorkflowState) (id : TaskId)
    (t : TaskState) (d : TaskId) (hget : mapGet s.tasks id = some t)
    (hd : d ∈ t.deps) (hmiss : mapGet s.tasks d = none) :
    isDependencyCompleted d s.tasks = false ∧
    canStartTask id s = false ∧
    canStartTaskOOP id s = false ∧
    mapGet (startNewTasks s).tasks id = some t := by
  refine ⟨by rw [isDependencyCompleted, hmiss],
    canStart_false_of_missing_dep hget hd hmiss, ?_,
    aux_missing_dep s.tasks.length s id d t hget hd hmiss⟩
  rw [canStartTaskOOP, hget]
  by_cases hp : t.status = Status.pending
  · have hall : t.deps.all (fun depId =>
        match mapGet s.tasks depId with
        | some dt => decide (dt.status = Status.completed)
        | none => false) = false := by
      rw [List.all_eq_false]
      refine ⟨d, hd, ?_⟩
      rw [hmiss]
      simp
    simp [hp, hall]
  · simp [hp]

/-- C10 witness: the single-task input whose dependency `X` is
undeclared. -/
theorem unknown_dep_never_ready_witness :
    mapGet (initializeWorkflow unknownDepTasks 1).tasks "A" =
      some ⟨"A", 1, ["X"], .pending, none, none⟩ ∧
    (isDependencyCompleted "X" (initializeWorkflow unknownDepTasks 1).tasks =
      false ∧
    canStartTask "A" (initializeWorkflow unknownDepTasks 1) = false ∧
    canStartTaskOOP "A" (initializeWorkflow unknownDepTasks 1) = false ∧
    mapGet (startNewTasks (initializeWorkflow unknownDepTasks 1)).tasks "A" =
      some ⟨"A", 1, ["X"], .pending, none, none⟩) :=
  ⟨by decide,
   unknown_dep_never_ready (initializeWorkflow unknownDepTasks 1) "A"
     ⟨"A", 1, ["X"], .pending, none, none⟩ "X"
     (by decide) (by decide) (by decide)⟩

/-! ## Termination measure: the outstanding workload -/

theorem sum_f_mapSet (f : TaskState → Nat) :
    ∀ (m : TaskMap) (k : TaskId) (v old : TaskState), mapGet m k = some old →
    ((mapSet m k v).map (fun p => f p.2)).sum + f old =
      (m.map (fun p => f p.2)).sum + f v := by
  intro m
  induction m with
  | nil => intro k v old h; simp [mapGet] at h
  | cons p rest ih =>
      intro k v old h
      rw [mapGet] at h
      by_cases hp : p.1 = k
      · rw [if_pos hp] at h
        injection h with he
        simp only [mapSet, if_pos hp, List.map_cons, List.sum_cons, ← he]
        omega
      · rw [if_neg hp] at h
        have := ih k v old h
        simp only [mapSet, if_neg hp, List.map_cons, List.sum_cons]
        omega

theorem mapSet_of_not_mem {m : TaskMap} {k : TaskId} (v : TaskState)
    (h : k ∉ m.map Prod.fst) : mapSet m k v = m ++ [(k, v)] := by
  induction m with
  | nil => simp [mapSet]
  | cons p rest ih =>
      rw [List.map_cons, List.mem_cons] at h
      push_neg at h
      have hp : ¬p.1 = k := fun hh => h.1 hh.symm
      simp [mapSet, hp, ih h.2]

theorem sum_f_mapSet_le (f : TaskState → Nat) (m : TaskMap) (k : TaskId)
    (v : TaskState) :
    ((mapSet m k v).map (fun p => f p.2)).sum ≤
      (m.map (fun p => f p.2)).sum + f v := by
  rcases h : mapGet m k with _ | old
  · rw [mapSet_of_not_mem v ((mapGet_eq_none_iff m k).1 h)]
    simp
  · have := sum_f_mapSet f m k v old h
    omega

theorem sumtimes_initialTaskMap_le (tasks : List Task) :
    ((initialTaskMap tasks).map (fun p => p.2.time)).sum ≤
      sumDurations tasks := by
  rw [initialTaskMap, sumDurations]
  suffices hgen : ∀ (ts : List Task) (m : TaskMap),
      ((ts.foldl (fun m t => mapSet m t.id (createTaskState t)) m).map
        (fun p => p.2.time)).sum ≤
      (m.map (fun p => p.2.time)).sum + (ts.map (fun t => t.time)).sum from by
    have := hgen tasks []
    simpa using this
  intro ts
  induction ts with
  | nil => intro m; simp
  | cons t ts ih =>
      intro m
      rw [List.foldl_cons]
      refine Nat.le_trans (ih _) ?_
      have h1 := sum_f_mapSet_le (fun x => x.time) m t.id (createTaskState t)
      have h2 : (createTaskState t).time = t.time := rfl
      rw [h2] at h1
      simp only [List.map_cons, List.sum_cons]
      omega

theorem workload_init_le (tasks : List Task) (maxC : Nat) :
    workload (initializeWorkflow tasks maxC) ≤ sumDurations tasks := by
  have hcong : (initializeWorkflow tasks maxC).tasks.map
      (fun p => remaining 0 p.2) =
      (initializeWorkflow tasks maxC).tasks.map (fun p => p.2.time) := by
    refine List.map_congr_left (fun p hp => ?_)
    rcases initialTaskMap_entries tasks p hp with ⟨task, _, h⟩
    rw [h]
    rfl
  show ((initializeWorkflow tasks maxC).tasks.map
      (fun p => remaining 0 p.2)).sum ≤ sumDurations tasks
  rw [hcong]
  exact sumtimes_initialTaskMap_le tasks

theorem workload_completeFold (ct : Nat) :
    ∀ (L : List TaskId) (m : TaskMap) (r : List TaskId), L.Nodup →
    (∀ id ∈ L, ∃ t, mapGet m id = some t ∧ t.status = .running) →
    ((L.foldl (completeOne ct) (m, r)).1.map
      (fun p => remaining ct p.2)).sum =
      (m.map (fun p => remaining ct p.2)).sum := by
  intro L
  induction L with
  | nil => intro m r _ _; rfl
  | cons a L ih =>
      intro m r hnd hrun
      rw [List.nodup_cons] at hnd
      rw [List.foldl_cons]
      rcases hrun a (by simp) with ⟨t, hma, hr⟩
      by_cases hc : t.startTime.getD 0 + t.time ≤ ct
      · have hstep : completeOne ct (m, r) a =
            (mapSet m a (markDone ct t), setDelete r a) := by
          simp [completeOne, hma, hc]
        rw [hstep]
        have hrec := ih (mapSet m a (markDone ct t)) (setDelete r a) hnd.2 ?_
        · rw [hrec]
          have hsum := sum_f_mapSet (remaining ct) m a (markDone ct t) t hma
          have hz1 : remaining ct t = 0 := by
            simp [remaining, hr]
            omega
          have hz2 : remaining ct (markDone ct t) = 0 := by
            simp [remaining, markDone]
          omega
        · intro id hid
          rcases hrun id (List.mem_cons_of_mem _ hid) with ⟨t1, h1, h2⟩
          refine ⟨t1, ?_, h2⟩
          rw [mapGet_mapSet_ne _ _ (by intro hh; rw [hh] at hid; exact hnd.1 hid)]
          exact h1
      · have hstep : completeOne ct (m, r) a = (m, r) := by
          simp [completeOne, hma, hc]
        rw [hstep]
        exact ih m r hnd.2 (fun id hid => hrun id (List.mem_cons_of_mem _ hid))

theorem workload_updateRunning {s : WorkflowState} (hwf : WF s) :
    workload (updateRunningTasks s) = workload s := by
  show ((s.runningTasks.foldl (completeOne s.currentTime)
      (s.tasks, s.runningTasks)).1.map
      (fun p => remaining (updateRunningTasks s).currentTime p.2)).sum = _
  rw [updateRunning_time]
  exact workload_completeFold s.currentTime s.runningTasks s.tasks
    s.runningTasks hwf.runNodup (fun id hid => hwf.cohF id hid)

theorem workload_aux (fuel : Nat) :
    ∀ (s : WorkflowState), Ctx s →
    workload (startNewTasksAux fuel s).1 = workload s := by
  induction fuel with
  | zero => intro s _; rfl
  | succ n ih =>
      intro s hc
      rw [startNewTasksAux]
      by_cases hg : s.runningTasks.length < s.maxConcurrent
      · rcases hav : getAvailableTasks s with _ | ⟨t, rest⟩
        · simp only [hg, hav, if_pos]
        · simp only [hg, hav, if_pos]
          rw [ih (admitTask s t) (Ctx_admitTask hc hav)]
          have hget : mapGet s.tasks t.id = some t :=
            avail_mem_get hc.keysNodup hc.idMatch (by rw [hav]; simp)
          have hp : t.status = .pending :=
            canStart_pending hget (avail_mem_canStart (by rw [hav]; simp))
          have hsum := sum_f_mapSet (remaining s.currentTime) s.tasks t.id { t with status := Status.running, startTime := some s.currentTime } t hget
          have he1 : remaining s.currentTime t = t.time := by
            simp [remaining, hp]
          have he2 : remaining s.currentTime { t with status := Status.running, startTime := some s.currentTime } = t.time := by
            simp [remaining]
          show ((mapSet s.tasks t.id { t with status := Status.running, startTime := some s.currentTime }).map (fun p => remaining s.currentTime p.2)).sum = workload s
          rw [workload]
          omega
      · rw [if_neg hg]

theorem workload_startNewTasks {s : WorkflowState} (hc : Ctx s) :
    workload (startNewTasks s) = workload s :=
  workload_aux s.tasks.length s hc

/-! ## After the two passes, every running task still needs time -/

theorem act_update {s : WorkflowState} (hwf : WF s) :
    ∀ id ∈ (updateRunningTasks s).runningTasks,
    ∃ t, mapGet (updateRunningTasks s).tasks id = some t ∧
      t.status = .running ∧
      (updateRunningTasks s).currentTime < t.startTime.getD 0 + t.time := by
  intro id hid
  have hrun := updateRunning_run s hwf.runNodup
  rw [hrun, List.mem_filter] at hid
  rcases hid with ⟨hmem, hnd⟩
  rcases hwf.cohF id hmem with ⟨t, hget, hr⟩
  have hnotdone : ¬doneNow s.currentTime s.tasks id = true := by
    simpa using hnd
  have hget2 : mapGet (updateRunningTasks s).tasks id = some t := by
    rw [updateRunning_get s hwf.runNodup id,
      if_neg (fun hc => hnotdone hc.2)]
    exact hget
  refine ⟨t, hget2, hr, ?_⟩
  rw [updateRunning_time]
  simp only [doneNow, hget, decide_eq_true_eq] at hnotdone
  omega

theorem act_aux (fuel : Nat) :
    ∀ (s : WorkflowState), Ctx s →
    (∀ id t, mapGet s.tasks id = some t → 1 ≤ t.time) →
    (∀ id ∈ s.runningTasks, ∃ t, mapGet s.tasks id = some t ∧
      t.status = .running ∧ s.currentTime < t.startTime.getD 0 + t.time) →
    ∀ id ∈ (startNewTasksAux fuel s).1.runningTasks,
    ∃ t, mapGet (startNewTasksAux fuel s).1.tasks id = some t ∧
      t.status = .running ∧
      (startNewTasksAux fuel s).1.currentTime <
        t.startTime.getD 0 + t.time := by
  induction fuel with
  | zero => intro s _ _ hact; exact hact
  | succ n ih =>
      intro s hc hpos hact
      rw [startNewTasksAux]
      by_cases hg : s.runningTasks.length < s.maxConcurrent
      · rcases hav : getAvailableTasks s with _ | ⟨t, rest⟩
        · simp only [hg, hav, if_pos]
          exact hact
        · simp only [hg, hav, if_pos]
          have hget : mapGet s.tasks t.id = some t :=
            avail_mem_get hc.keysNodup hc.idMatch (by rw [hav]; simp)
          have hcs : canStartTask t.id s = true :=
            avail_mem_canStart (by rw [hav]; simp)
          have htnr : t.id ∉ s.runningTasks := hc.readyNotRun t.id hcs
          refine ih (admitTask s t) (Ctx_admitTask hc hav) ?_ ?_
          · intro id t' hg'
            by_cases hid : id = t.id
            · rw [hid] at hg'
              have := mapGet_mapSet_self s.tasks t.id { t with status := Status.running, startTime := some s.currentTime }
              rw [show (admitTask s t).tasks = mapSet s.tasks t.id { t with status := Status.running, startTime := some s.currentTime } from rfl] at hg'
              rw [this] at hg'
              injection hg' with he
              rw [← he]
              exact hpos t.id t hget
            · rw [show (admitTask s t).tasks = mapSet s.tasks t.id { t with status := Status.running, startTime := some s.currentTime } from rfl,
                mapGet_mapSet_ne _ _ hid] at hg'
              exact hpos id t' hg'
          · intro id hid
            rw [admit_running hc hav, List.mem_append] at hid
            rcases hid with hid | hid
            · rcases hact id hid with ⟨t1, h1, h2, h3⟩
              have hne : ¬id = t.id := fun hh => htnr (hh ▸ hid)
              refine ⟨t1, ?_, h2, h3⟩
              rw [show (admitTask s t).tasks = mapSet s.tasks t.id { t with status := Status.running, startTime := some s.currentTime } from rfl,
                mapGet_mapSet_ne _ _ hne]
              exact h1
            · have hid2 : id = t.id := by simpa using hid
              refine ⟨{ t with status := Status.running, startTime := some s.currentTime }, ?_, rfl, ?_⟩
              · rw [hid2]
                exact mapGet_mapSet_self _ _ _
              · show (admitTask s t).currentTime <
                  (some s.currentTime).getD 0 + t.time
                have := hpos t.id t hget
                simp only [Option.getD_some]
                show s.currentTime < s.currentTime + t.time
                omega
      · rw [if_neg hg]
        exact hact

theorem remaining_succ_le (ct : Nat) (t : TaskState) :
    remaining (ct + 1) t ≤ remaining ct t := by
  rcases h : t.status
  · simp [remaining, h]
  · simp only [remaining, h]
    omega
  · simp [remaining, h]

theorem workload_bump_lt {s : WorkflowState}
    (hact : ∀ id ∈ s.runningTasks, ∃ t, mapGet s.tasks id = some t ∧
      t.status = .running ∧ s.currentTime < t.startTime.getD 0 + t.time)
    (hne : 0 < s.runningTasks.length) :
    workload { s with currentTime := s.currentTime + 1 } < workload s := by
  rcases hr : s.runningTasks with _ | ⟨id0, rest⟩
  · rw [hr] at hne; simp at hne
  have hid0 : id0 ∈ s.runningTasks := by rw [hr]; simp
  rcases hact id0 hid0 with ⟨t0, hget0, hr0, hlt0⟩
  have hmem0 : (id0, t0) ∈ s.tasks := mem_of_mapGet hget0
  show ((s.tasks.map (fun p => remaining (s.currentTime + 1) p.2)).sum <
    (s.tasks.map (fun p => remaining s.currentTime p.2)).sum)
  refine List.sum_lt_sum _ _ ?_ ?_
  · intro p _
    exact remaining_succ_le s.currentTime p.2
  · refine ⟨(id0, t0), hmem0, ?_⟩
    show remaining (s.currentTime + 1) t0 < remaining s.currentTime t0
    simp only [remaining, hr0]
    omega

/-! ## Fuel monotonicity and unfinished-task extraction -/

theorem runAllFuel_mono :
    ∀ (n m : Nat) (s : WorkflowState) (f : WorkflowState),
    runAllFuel n s = some f → n ≤ m → runAllFuel m s = some f := by
  intro n
  induction n with
  | zero => intro m s f h; exact absurd h (by simp [runAllFuel])
  | succ n ih =>
      intro m s f h hle
      rcases m with _ | m
      · exact absurd hle (by omega)
      rw [runAllFuel] at h ⊢
      rcases hnext : next s with ⟨s2, c⟩
      rw [hnext] at h
      rcases c with _ | _
      · simpa using h
      · simp only [if_pos] at h ⊢
        exact ih m s2 f h (by omega)

theorem hasUnfinished_elim {s : WorkflowState}
    (h : hasUnfinishedTasks s = true) :
    ∃ p ∈ s.tasks, ¬p.2.status = .completed := by
  rw [hasUnfinishedTasks, List.any_eq_true] at h
  rcases h with ⟨t, ht, hne⟩
  rcases List.mem_map.1 ht with ⟨p, hp, hpt⟩
  refine ⟨p, hp, ?_⟩
  rw [hpt]
  simpa using hne

theorem next_tasks (s : WorkflowState) :
    (next s).1.tasks = (startNewTasks (updateRunningTasks s)).tasks := by
  rw [next]
  by_cases hc : (startNewTasks (updateRunningTasks s)).runningTasks.length > 0
  · simp only [hc, if_pos]
  · simp only [hc, if_neg, if_false]

/-! ## Entries keep their durations and dependencies -/

theorem entries_update {s : WorkflowState} (hwf : WF s) (id : TaskId)
    (t' : TaskState) (h : mapGet (updateRunningTasks s).tasks id = some t') :
    ∃ t, mapGet s.tasks id = some t ∧ t'.time = t.time ∧
      t'.deps = t.deps := by
  rw [updateRunning_get s hwf.runNodup id] at h
  by_cases hc : id ∈ s.runningTasks ∧ doneNow s.currentTime s.tasks id = true
  · rw [if_pos hc] at h
    rcases hg : mapGet s.tasks id with _ | t
    · rw [hg] at h; simp at h
    · rw [hg] at h
      simp only [Option.map] at h
      injection h with he
      exact ⟨t, rfl, by rw [← he]; rfl, by rw [← he]; rfl⟩
  · rw [if_neg hc] at h
    exact ⟨t', h, rfl, rfl⟩

theorem entries_tick {s : WorkflowState} (hwf : WF s) (id : TaskId)
    (t' : TaskState)
    (h : mapGet (startNewTasks (updateRunningTasks s)).tasks id = some t') :
    ∃ t, mapGet s.tasks id = some t ∧ t'.time = t.time ∧
      t'.deps = t.deps := by
  rcases aux_entry_shape (updateRunningTasks s).tasks.length
      (updateRunningTasks s) (WF_updateRunning hwf).toCtx id t' h with
    ⟨et, h1, h2, h3⟩
  rcases entries_update hwf id et h1 with ⟨t, h4, h5, h6⟩
  exact ⟨t, h4, by rw [h2, h5], by rw [h3, h6]⟩

theorem keys_tick (s : WorkflowState) :
    (startNewTasks (updateRunningTasks s)).tasks.map Prod.fst =
      s.tasks.map Prod.fst := by
  show (startNewTasksAux _ _).1.tasks.map Prod.fst = _
  rw [aux_keys, updateRunning_keys]

theorem posi_update {s : WorkflowState} (hwf : WF s)
    (hpos : ∀ id t, mapGet s.tasks id = some t → 1 ≤ t.time) :
    ∀ id t, mapGet (updateRunningTasks s).tasks id = some t →
      1 ≤ t.time := by
  intro id t h
  rcases entries_update hwf id t h with ⟨t0, h1, h2, _⟩
  rw [h2]
  exact hpos id t0 h1

theorem posi_tick {s : WorkflowState} (hwf : WF s)
    (hpos : ∀ id t, mapGet s.tasks id = some t → 1 ≤ t.time) :
    ∀ id t, mapGet (startNewTasks (updateRunningTasks s)).tasks id = some t →
      1 ≤ t.time := by
  intro id t h
  rcases entries_tick hwf id t h with ⟨t0, h1, h2, _⟩
  rw [h2]
  exact hpos id t0 h1

theorem rki_tick {s : WorkflowState} (rank : TaskId → Nat) (hwf : WF s)
    (hrk : ∀ id t, mapGet s.tasks id = some t → ∀ d ∈ t.deps,
      (∃ dt, mapGet s.tasks d = some dt) ∧ rank d < rank id) :
    ∀ id t, mapGet (startNewTasks (updateRunningTasks s)).tasks id = some t →
      ∀ d ∈ t.deps,
      (∃ dt, mapGet (startNewTasks (updateRunningTasks s)).tasks d = some dt) ∧
      rank d < rank id := by
  intro id t h d hd
  rcases entries_tick hwf id t h with ⟨t0, h1, h2, h3⟩
  rw [h3] at hd
  rcases hrk id t0 h1 d hd with ⟨⟨dt, hdt⟩, hrank⟩
  refine ⟨?_, hrank⟩
  have hk : d ∈ (startNewTasks (updateRunningTasks s)).tasks.map Prod.fst := by
    rw [keys_tick]
    exact mem_keys_of_mapGet hdt
  exact mapGet_isSome_of_mem_keys hk

/-! ## Progress: with a ranked, resolvable graph a stalled run is done -/

theorem progress {s : WorkflowState} (rank : TaskId → Nat) (hwf : WF s)
    (hrk : ∀ id t, mapGet s.tasks id = some t → ∀ d ∈ t.deps,
      (∃ dt, mapGet s.tasks d = some dt) ∧ rank d < rank id)
    (hnorun : s.runningTasks = []) :
    ∀ id t, mapGet s.tasks id = some t → ¬t.status = .completed →
    ∃ id2, canStartTask id2 s = true := by
  have main : ∀ k id t, rank id = k → mapGet s.tasks id = some t →
      ¬t.status = .completed → ∃ id2, canStartTask id2 s = true := by
    intro k
    induction k using Nat.strong_induction_on with
    | _ k ih =>
        intro id t hk hget hnc
        rcases hstat : t.status with _ | _ | _
        · by_cases hall : t.deps.all
              (fun dd => isDependencyCompleted dd s.tasks) = true
          · refine ⟨id, ?_⟩
            rw [canStartTask, hget]
            simp [hstat, hall]
          · have hfalse : t.deps.all
                (fun dd => isDependencyCompleted dd s.tasks) = false :=
              Bool.eq_false_iff.2 hall
            rcases List.all_eq_false.1 hfalse with ⟨d, hd, hdf⟩
            rcases hrk id t hget d hd with ⟨⟨dt, hdt⟩, hrank⟩
            have hdnc : ¬dt.status = .completed := by
              intro hcd
              rw [isDependencyCompleted, hdt] at hdf
              simp [hcd] at hdf
            exact ih (rank d) (hk ▸ hrank) d dt rfl hdt hdnc
        · have hmem := hwf.cohB id t hget hstat
          rw [hnorun] at hmem
          exact absurd hmem (by simp)
        · exact absurd hstat hnc
  intro id t hget hnc
  exact main (rank id) id t rfl hget hnc

theorem avail_ne_nil_of_ready {s : WorkflowState}
    (hid : ∀ p ∈ s.tasks, p.2.id = p.1) {id2 : TaskId}
    (h : canStartTask id2 s = true) : getAvailableTasks s ≠ [] := by
  rcases canStart_elim h with ⟨t0, hget, _, _⟩
  have hmem : (id2, t0) ∈ s.tasks := mem_of_mapGet hget
  have hvid : t0.id = id2 := hid (id2, t0) hmem
  have hval : t0 ∈ s.tasks.map Prod.snd := List.mem_map_of_mem Prod.snd hmem
  have hin : t0 ∈ getAvailableTasks s := by
    rw [getAvailableTasks]
    refine List.mem_filter.2 ⟨hval, ?_⟩
    rw [hvid]
    exact h
  intro hnil
  rw [hnil] at hin
  exact absurd hin (by simp)

/-! ## The two possible outcomes of a tick -/

theorem next_cases (s : WorkflowState) :
    (0 < (startNewTasks (updateRunningTasks s)).runningTasks.length ∧
      next s = ({ startNewTasks (updateRunningTasks s) with
        currentTime :=
          (startNewTasks (updateRunningTasks s)).currentTime + 1 }, true)) ∨
    ((startNewTasks (updateRunningTasks s)).runningTasks.length = 0 ∧
      next s = (startNewTasks (updateRunningTasks s),
        hasUnfinishedTasks (startNewTasks (updateRunningTasks s)))) := by
  rw [next]
  by_cases hc : (startNewTasks (updateRunningTasks s)).runningTasks.length > 0
  · left
    exact ⟨hc, by simp [hc]⟩
  · right
    exact ⟨by omega, by simp [hc]⟩

/-! ## Main termination induction -/

theorem run_terminates (rank : TaskId → Nat) :
    ∀ (k : Nat) (s : WorkflowState), WF s →
    (∀ id t, mapGet s.tasks id = some t → 1 ≤ t.time) →
    (∀ id t, mapGet s.tasks id = some t → ∀ d ∈ t.deps,
      (∃ dt, mapGet s.tasks d = some dt) ∧ rank d < rank id) →
    1 ≤ s.maxConcurrent →
    workload s ≤ k →
    ∃ f, runAllFuel (k + 1) s = some f ∧
      f.currentTime ≤ s.currentTime + k := by
  intro k
  induction k using Nat.strong_induction_on with
  | _ k ih =>
      intro s hwf hpos hrk hmc hwl
      have hwfu := WF_updateRunning hwf
      have hwf1 := WF_startNewTasks hwfu
      have hct1 : (startNewTasks (updateRunningTasks s)).currentTime =
          s.currentTime := by
        show (startNewTasksAux _ _).1.currentTime = _
        rw [aux_time, updateRunning_time]
      have hmax1 : (startNewTasks (updateRunningTasks s)).maxConcurrent =
          s.maxConcurrent := by
        show (startNewTasksAux _ _).1.maxConcurrent = _
        rw [aux_max, updateRunning_max]
      have hwl1 : workload (startNewTasks (updateRunningTasks s)) =
          workload s := by
        rw [workload_startNewTasks hwfu.toCtx, workload_updateRunning hwf]
      have hpos1 := posi_tick hwf hpos
      have hrk1 := rki_tick rank hwf hrk
      rcases next_cases s with ⟨hrun1, hnext⟩ | ⟨hzero, hnext⟩
      · -- a task is running: time advances and the workload strictly drops
        have hposu := posi_update hwf hpos
        have hact1 : ∀ id ∈ (startNewTasks (updateRunningTasks s)).runningTasks,
            ∃ t, mapGet (startNewTasks (updateRunningTasks s)).tasks id =
              some t ∧ t.status = .running ∧
              (startNewTasks (updateRunningTasks s)).currentTime <
                t.startTime.getD 0 + t.time :=
          act_aux (updateRunningTasks s).tasks.length (updateRunningTasks s)
            hwfu.toCtx hposu (act_update hwf)
        have hdec : workload { startNewTasks (updateRunningTasks s) with
            currentTime :=
              (startNewTasks (updateRunningTasks s)).currentTime + 1 } <
            workload (startNewTasks (updateRunningTasks s)) :=
          workload_bump_lt hact1 hrun1
        rw [hwl1] at hdec
        have hlt : workload { startNewTasks (updateRunningTasks s) with
            currentTime :=
              (startNewTasks (updateRunningTasks s)).currentTime + 1 } < k :=
          Nat.lt_of_lt_of_le hdec hwl
        have hwf2 : WF { startNewTasks (updateRunningTasks s) with
            currentTime :=
              (startNewTasks (updateRunningTasks s)).currentTime + 1 } :=
          WF_bump hwf1
        rcases ih _ hlt _ hwf2 hpos1 hrk1 (by rw [show ({ startNewTasks (updateRunningTasks s) with currentTime := (startNewTasks (updateRunningTasks s)).currentTime + 1 } : WorkflowState).maxConcurrent = (startNewTasks (updateRunningTasks s)).maxConcurrent from rfl, hmax1]; exact hmc) (Nat.le_refl _) with ⟨f, hf, hcf⟩
        refine ⟨f, ?_, ?_⟩
        · rw [runAllFuel, hnext]
          simp only [if_pos]
          exact runAllFuel_mono _ k _ f hf (by omega)
        · have hcts : ({ startNewTasks (updateRunningTasks s) with
              currentTime :=
                (startNewTasks (updateRunningTasks s)).currentTime + 1 } :
              WorkflowState).currentTime = s.currentTime + 1 := by
            rw [show ({ startNewTasks (updateRunningTasks s) with currentTime := (startNewTasks (updateRunningTasks s)).currentTime + 1 } : WorkflowState).currentTime = (startNewTasks (updateRunningTasks s)).currentTime + 1 from rfl, hct1]
          rw [hcts] at hcf
          omega
      · -- nothing runs after the passes
        rcases hu : hasUnfinishedTasks (startNewTasks (updateRunningTasks s))
            with _ | _
        · -- all tasks completed: the driver stops here
          rw [hu] at hnext
          refine ⟨startNewTasks (updateRunningTasks s), ?_, ?_⟩
          · rw [runAllFuel, hnext]
            simp
          · rw [hct1]
            omega
        · -- impossible: some task is unfinished but nothing can run
          exfalso
          rcases hasUnfinished_elim hu with ⟨p, hp, hnc⟩
          have hget : mapGet (startNewTasks (updateRunningTasks s)).tasks p.1 =
              some p.2 := mapGet_of_mem hwf1.keysNodup hp
          have hnil : (startNewTasks (updateRunningTasks s)).runningTasks = [] :=
            List.length_eq_zero.1 hzero
          rcases progress rank hwf1 hrk1 hnil p.1 p.2 hget hnc with ⟨id2, hready⟩
          have havne : getAvailableTasks (startNewTasks (updateRunningTasks s)) ≠ [] :=
            avail_ne_nil_of_ready hwf1.idMatch hready
          have hfuel : (getAvailableTasks (updateRunningTasks s)).length ≤
              (updateRunningTasks s).tasks.length := by
            rw [getAvailableTasks]
            refine Nat.le_trans (List.length_filter_le _ _) ?_
            rw [List.length_map]
          rcases aux_exit (updateRunningTasks s).tasks.length
              (updateRunningTasks s) hwfu.toCtx hfuel with hx | hx
          · exact havne hx
          · refine hx ?_
            show (startNewTasks (updateRunningTasks s)).runningTasks.length <
              (startNewTasks (updateRunningTasks s)).maxConcurrent
            rw [hzero, hmax1]
            omega

/-- C5: for every input whose dependency graph admits a rank function
(hence is acyclic) and resolves every dependency id, with positive
durations and maximum concurrency at least 1, the driver terminates —
`runAll` exits within `sum of durations + 1` iterations of `next` (so at
most `sum of durations` time-advancing ticks) and the final current time
(the makespan) is at most the sum of all task durations. -/
theorem termination_within_duration_sum (tasks : List Task) (maxC : Nat)
    (rank : TaskId → Nat) (hmc : 1 ≤ maxC)
    (hpos : ∀ t ∈ tasks, 1 ≤ t.time)
    (hres : ∀ t ∈ tasks, ∀ d ∈ t.deps,
      (∃ t2 ∈ tasks, t2.id = d) ∧ rank d < rank t.id) :
    ∃ f, runAllFuel (sumDurations tasks + 1) (initializeWorkflow tasks maxC) =
      some f ∧ f.currentTime ≤ sumDurations tasks := by
  have hent : ∀ id t, mapGet (initializeWorkflow tasks maxC).tasks id =
      some t → ∃ task ∈ tasks, t = createTaskState task ∧ task.id = id := by
    intro id t hget
    rcases initialTaskMap_entries tasks _ (mem_of_mapGet hget) with
      ⟨task, htask, hp⟩
    injection hp with h1 h2
    exact ⟨task, htask, h2, h1.symm⟩
  have hposi : ∀ id t, mapGet (initializeWorkflow tasks maxC).tasks id =
      some t → 1 ≤ t.time := by
    intro id t hget
    rcases hent id t hget with ⟨task, htask, he, _⟩
    rw [he]
    exact hpos task htask
  have hrki : ∀ id t, mapGet (initializeWorkflow tasks maxC).tasks id =
      some t → ∀ d ∈ t.deps,
      (∃ dt, mapGet (initializeWorkflow tasks maxC).tasks d = some dt) ∧
      rank d < rank id := by
    intro id t hget d hd
    rcases hent id t hget with ⟨task, htask, he, hid⟩
    have hd2 : d ∈ task.deps := by
      rw [he] at hd
      exact hd
    rcases hres task htask d hd2 with ⟨⟨t2, ht2, ht2id⟩, hrank⟩
    constructor
    · have hk : d ∈ (initializeWorkflow tasks maxC).tasks.map Prod.fst := by
        rw [← ht2id]
        exact mem_keys_initialTaskMap ht2
      exact mapGet_isSome_of_mem_keys hk
    · rw [← hid]
      exact hrank
  rcases run_terminates rank (sumDurations tasks)
      (initializeWorkflow tasks maxC) (WF_init tasks maxC) hposi hrki hmc
      (workload_init_le tasks maxC) with ⟨f, hf, hcf⟩
  refine ⟨f, hf, ?_⟩
  have h0 : (initializeWorkflow tasks maxC).currentTime = 0 := rfl
  omega

/-- C5 witness: the reference scenario satisfies the hypotheses with the
rank A ↦ 0, B,C ↦ 1, D ↦ 2, E ↦ 3, and the run finishes with makespan at
most 11 within 12 iterations. -/
theorem termination_within_duration_sum_witness :
    ((1 : Nat) ≤ 2 ∧ (∀ t ∈ tasks_2, 1 ≤ t.time)) ∧
    ∃ f, runAllFuel (sumDurations tasks_2 + 1) (initializeWorkflow tasks_2 2) =
      some f ∧ f.currentTime ≤ sumDurations tasks_2 :=
  ⟨⟨by decide, by decide⟩,
   termination_within_duration_sum tasks_2 2
     (fun id => if id = "A" then 0 else if id = "B" then 1
       else if id = "C" then 1 else if id = "D" then 2 else 3)
     (by decide) (by decide) (by decide)⟩

end Workflow
